import Mathlib

/-
Verification of the YaPECS entity-component-system core (`yapecs/_detail.py`,
`yapecs/world.py`) against its natural-language specification.

Modelling conventions:
* Python `int` bitmask values (`Bitmask`) and entity identities (`EntityID`)
  are `Nat`.
* Component types and processor classes are identified by `Nat` tags; a
  component value is its class tag together with an opaque payload.
* Python dicts are insertion-ordered association lists `List (Nat × α)`;
  `dictGet`/`dictSet`/`dictDel` mirror `d[k]`, `dict.__setitem__` and
  `del d[k]` (overwrite keeps position, new keys append at the end).
* Python sets are duplicate-free lists; only membership matters.
* Raising an exception is modelled with `Except Err` (for expressions) or a
  `_ × Option Err` result (for statement sequences whose partial mutations
  must be kept when an exception propagates mid-way).
* `float` priorities are modelled as `Int`: the code only ever compares
  priorities, and every priority in the specification is a small integer.
-/

namespace YaPECS

/-- Exception kinds raised by the code under verification. -/
inductive Err where
  | typeError
  | keyError
  | valueError
deriving DecidableEq

/-- A component value: the tag of its Python class plus an opaque payload. -/
structure Component where
  cls : Nat
  val : Nat
deriving DecidableEq

instance {ε α : Type} [DecidableEq ε] [DecidableEq α] :
    DecidableEq (Except ε α) := fun x y =>
  match x, y with
  | Except.ok a, Except.ok b =>
    if h : a = b then isTrue (congrArg Except.ok h)
    else isFalse (fun hc => h (Except.ok.inj hc))
  | Except.error e, Except.error f =>
    if h : e = f then isTrue (congrArg Except.error h)
    else isFalse (fun hc => h (Except.error.inj hc))
  | Except.ok _, Except.error _ => isFalse (fun hc => Except.noConfusion hc)
  | Except.error _, Except.ok _ => isFalse (fun hc => Except.noConfusion hc)

theorem exceptBind_ok {ε α β : Type} (a : α) (f : α → Except ε β) :
    (Except.ok a : Except ε α) >>= f = f a := rfl

theorem exceptBind_error {ε α β : Type} (e : ε) (f : α → Except ε β) :
    (Except.error e : Except ε α) >>= f = Except.error e := rfl

theorem exceptPure {ε α : Type} (a : α) :
    (pure a : Except ε α) = Except.ok a := rfl

/-- Python `d[k]` on a plain dict, returning `none` when the key is absent. -/
def dictGet {α : Type} (l : List (Nat × α)) (k : Nat) : Option α :=
  match l with
  | [] => none
  | p :: rest => if p.1 = k then some p.2 else dictGet rest k

/-- Keys of a dict, in insertion order. -/
def dictKeys {α : Type} (l : List (Nat × α)) : List Nat :=
  l.map Prod.fst

/-- Python `dict.__setitem__`: overwrite in place if the key exists,
otherwise append the new pair at the end. -/
def dictSet {α : Type} (l : List (Nat × α)) (k : Nat) (v : α) : List (Nat × α) :=
  if k ∈ dictKeys l then
    l.map (fun p => if p.1 = k then (k, v) else p)
  else
    l ++ [(k, v)]

/-- Python `del d[k]` in the case where `k` is present: drop the pair. -/
def dictDel {α : Type} (l : List (Nat × α)) (k : Nat) : List (Nat × α) :=
  l.filter (fun p => p.1 ≠ k)

theorem mem_dictKeys_iff_dictGet {α : Type} (l : List (Nat × α)) (k : Nat) :
    k ∈ dictKeys l ↔ ∃ v, dictGet l k = some v := by
  induction l with
  | nil =>
    constructor
    · intro h; cases h
    · rintro ⟨v, hv⟩; cases hv
  | cons p rest ih =>
    constructor
    · intro h
      rw [dictKeys, List.map_cons, List.mem_cons] at h
      rcases h with h | h
      · exact ⟨p.2, by rw [dictGet, if_pos h.symm]⟩
      · by_cases hp : p.1 = k
        · exact ⟨p.2, by rw [dictGet, if_pos hp]⟩
        · rcases ih.mp h with ⟨v, hv⟩
          exact ⟨v, by rw [dictGet, if_neg hp]; exact hv⟩
    · rintro ⟨v, hv⟩
      rw [dictGet] at hv
      rw [dictKeys, List.map_cons, List.mem_cons]
      by_cases hp : p.1 = k
      · exact Or.inl hp.symm
      · rw [if_neg hp] at hv
        exact Or.inr (ih.mpr ⟨v, hv⟩)

theorem dictGet_append {α : Type} (l l₂ : List (Nat × α)) (k : Nat) :
    dictGet (l ++ l₂) k =
      match dictGet l k with
      | some v => some v
      | none => dictGet l₂ k := by
  induction l with
  | nil => simp [dictGet]
  | cons p rest ih =>
    by_cases hp : p.1 = k
    · simp [dictGet, hp]
    · simp [dictGet, hp, ih]

theorem dictGet_mapReplace_self {α : Type} (l : List (Nat × α)) (k : Nat) (v : α) :
    dictGet (l.map (fun p => if p.1 = k then (k, v) else p)) k =
      (dictGet l k).map (fun _ => v) := by
  induction l with
  | nil => rfl
  | cons p rest ih =>
    by_cases hp : p.1 = k
    · simp [dictGet, hp]
    · simp [dictGet, hp, ih]

theorem dictGet_mapReplace_ne {α : Type} (l : List (Nat × α)) (k k' : Nat) (v : α)
    (h : k' ≠ k) :
    dictGet (l.map (fun p => if p.1 = k then (k, v) else p)) k' = dictGet l k' := by
  induction l with
  | nil => rfl
  | cons p rest ih =>
    by_cases hpk : p.1 = k
    · have hne : p.1 ≠ k' := by rw [hpk]; exact Ne.symm h
      simp [dictGet, hpk, Ne.symm h, hne, ih]
    · by_cases hp : p.1 = k'
      · simp [dictGet, hpk, hp, h]
      · simp [dictGet, hpk, hp, ih]

theorem dictGet_dictSet_self {α : Type} (l : List (Nat × α)) (k : Nat) (v : α) :
    dictGet (dictSet l k v) k = some v := by
  unfold dictSet
  by_cases hk : k ∈ dictKeys l
  · rcases (mem_dictKeys_iff_dictGet l k).mp hk with ⟨w, hw⟩
    simp [hk, dictGet_mapReplace_self, hw]
  · simp only [hk, if_false]
    rw [dictGet_append]
    rcases hg : dictGet l k with _ | w
    · simp [dictGet]
    · exact absurd ((mem_dictKeys_iff_dictGet l k).mpr ⟨w, hg⟩) hk

theorem dictGet_dictSet_ne {α : Type} (l : List (Nat × α)) (k k' : Nat) (v : α)
    (h : k' ≠ k) : dictGet (dictSet l k v) k' = dictGet l k' := by
  unfold dictSet
  by_cases hk : k ∈ dictKeys l
  · simp [hk, dictGet_mapReplace_ne l k k' v h]
  · simp only [hk, if_false]
    rw [dictGet_append]
    rcases hg : dictGet l k' with _ | w
    · simp [dictGet, Ne.symm h]
    · simp

theorem dictGet_dictDel_self {α : Type} (l : List (Nat × α)) (k : Nat) :
    dictGet (dictDel l k) k = none := by
  induction l with
  | nil => rfl
  | cons p rest ih =>
    by_cases hp : p.1 = k
    · simpa [dictDel, List.filter_cons, hp] using ih
    · simpa [dictDel, List.filter_cons, dictGet, hp] using ih

theorem dictGet_dictDel_ne {α : Type} (l : List (Nat × α)) (k k' : Nat)
    (h : k' ≠ k) : dictGet (dictDel l k) k' = dictGet l k' := by
  induction l with
  | nil => rfl
  | cons p rest ih =>
    by_cases hp : p.1 = k
    · simpa [dictDel, List.filter_cons, dictGet, hp, Ne.symm h] using ih
    · by_cases hp' : p.1 = k'
      · simp [dictDel, List.filter_cons, dictGet, hp, hp', h]
      · simpa [dictDel, List.filter_cons, dictGet, hp, hp'] using ih

theorem dictKeys_mapReplace {α : Type} (l : List (Nat × α)) (k : Nat) (v : α) :
    dictKeys (l.map (fun p => if p.1 = k then (k, v) else p)) = dictKeys l := by
  induction l with
  | nil => rfl
  | cons p rest ih =>
    simp only [dictKeys, List.map_cons] at ih ⊢
    congr 1
    by_cases hp : p.1 = k <;> simp [hp]

theorem dictKeys_dictSet_mem {α : Type} (l : List (Nat × α)) (k : Nat) (v : α)
    (h : k ∈ dictKeys l) : dictKeys (dictSet l k v) = dictKeys l := by
  unfold dictSet
  rw [if_pos h]
  exact dictKeys_mapReplace l k v

theorem dictKeys_dictSet_not_mem {α : Type} (l : List (Nat × α)) (k : Nat) (v : α)
    (h : k ∉ dictKeys l) : dictKeys (dictSet l k v) = dictKeys l ++ [k] := by
  unfold dictSet
  rw [if_neg h]
  simp [dictKeys]

/-- Decomposition loop of `Bitmask.bits`: `bit = 1; while bit <= self: if
bit & self: yield bit; bit <<= 1`.  The loop variable `bit` is always the
power `2 ^ i`, which we keep in exponent form to expose termination. -/
def bitsGo (v i : Nat) : List Nat :=
  if 2 ^ i ≤ v then
    (if 2 ^ i &&& v ≠ 0 then [2 ^ i] else []) ++ bitsGo v (i + 1)
  else []
termination_by v + 1 - 2 ^ i
decreasing_by
  have h1 : 1 ≤ 2 ^ i := Nat.one_le_two_pow
  have h2 : 2 ^ (i + 1) = 2 * 2 ^ i := by ring
  omega

/-- Property `Bitmask.bits`: the single-bit values set in a bitmask, in
ascending order. -/
def bits (v : Nat) : List Nat :=
  bitsGo v 0

theorem and_ne_zero_iff_testBit (v i : Nat) :
    (2 ^ i &&& v ≠ 0) ↔ v.testBit i = true := by
  rw [Nat.two_pow_and]
  cases h : v.testBit i <;> simp [h]

theorem mem_bitsGo (v i b : Nat) :
    b ∈ bitsGo v i ↔ ∃ j, i ≤ j ∧ v.testBit j = true ∧ b = 2 ^ j := by
  induction i using bitsGo.induct v with
  | case1 i hle ih =>
    rw [bitsGo, if_pos hle, List.mem_append]
    constructor
    · intro h
      rcases h with h | h
      · by_cases hb : 2 ^ i &&& v ≠ 0
        · rw [if_pos hb, List.mem_singleton] at h
          exact ⟨i, le_refl i, (and_ne_zero_iff_testBit v i).mp hb, h⟩
        · rw [if_neg hb] at h
          cases h
      · rcases ih.mp h with ⟨j, hj, ht, hb⟩
        exact ⟨j, by omega, ht, hb⟩
    · rintro ⟨j, hj, ht, hb⟩
      by_cases hji : j = i
      · left
        subst hji
        have hb2 : 2 ^ j &&& v ≠ 0 := (and_ne_zero_iff_testBit v j).mpr ht
        rw [if_pos hb2, List.mem_singleton]
        exact hb
      · right
        exact ih.mpr ⟨j, by omega, ht, hb⟩
  | case2 i hle =>
    rw [bitsGo, if_neg hle]
    constructor
    · intro h
      cases h
    · rintro ⟨j, hj, ht, _⟩
      exfalso
      have h1 : 2 ^ j ≤ v := Nat.testBit_implies_ge ht
      have h2 : 2 ^ i ≤ 2 ^ j := Nat.pow_le_pow_right (by norm_num) hj
      omega

theorem bitsGo_pairwise (v i : Nat) : (bitsGo v i).Pairwise (· < ·) := by
  induction i using bitsGo.induct v with
  | case1 i hle ih =>
    rw [bitsGo, if_pos hle]
    apply List.pairwise_append.mpr
    refine ⟨?_, ih, ?_⟩
    · by_cases hb : 2 ^ i &&& v ≠ 0
      · rw [if_pos hb]
        simp
      · rw [if_neg hb]
        exact List.Pairwise.nil
    · intro a ha b hb
      rcases (mem_bitsGo v (i + 1) b).mp hb with ⟨j, hj, _, hbj⟩
      have ha2 : a = 2 ^ i := by
        by_cases h : 2 ^ i &&& v ≠ 0
        · rw [if_pos h, List.mem_singleton] at ha
          exact ha
        · rw [if_neg h] at ha
          cases ha
      have hle2 : 2 ^ (i + 1) ≤ 2 ^ j := Nat.pow_le_pow_right (by norm_num) hj
      have h2 : 2 ^ (i + 1) = 2 * 2 ^ i := by ring
      have h3 : 1 ≤ 2 ^ i := Nat.one_le_two_pow
      omega
  | case2 i hle =>
    rw [bitsGo, if_neg hle]
    exact List.Pairwise.nil

theorem bits_mem_and_sorted (v : Nat) :
    (∀ b, b ∈ bits v ↔ ∃ i, v.testBit i = true ∧ b = 2 ^ i) ∧
      (bits v).Pairwise (· < ·) := by
  constructor
  · intro b
    rw [bits, mem_bitsGo]
    constructor
    · rintro ⟨j, _, ht, hb⟩
      exact ⟨j, ht, hb⟩
    · rintro ⟨j, ht, hb⟩
      exact ⟨j, Nat.zero_le j, ht, hb⟩
  · exact bitsGo_pairwise v 0

/-- C8: for every bitmask value `v`, `bits` enumerates exactly one single-bit
value `2 ^ i` for every set bit `i` of `v`, in strictly ascending order; the
enumeration is a pure function of `v`. -/
theorem bits_ascending_set_bits (v : Nat) :
    (∀ b, b ∈ bits v ↔ ∃ i, v.testBit i = true ∧ b = 2 ^ i) ∧
      (bits v).Pairwise (· < ·) :=
  bits_mem_and_sorted v

/-
Append-Only Registry: `InvariantDict` (`_detail.py`).  Every rejected mutator
raises `TypeError` before touching the underlying dict, so the structure is
returned unchanged alongside the raised error.  `add` computes a key with the
subclass strategy `get_new_key` and inserts it with the raw `dict.__setitem__`.
-/

/-- Result of `InvariantDict.__setitem__`: raises `TypeError`, dict unchanged. -/
def invSetitem {α : Type} (l : List (Nat × α)) (_k : Nat) (_v : α) :
    List (Nat × α) × Option Err :=
  (l, some Err.typeError)

/-- Result of `InvariantDict.update`: raises `TypeError`, dict unchanged. -/
def invUpdate {α : Type} (l : List (Nat × α)) (_args : List (Nat × α)) :
    List (Nat × α) × Option Err :=
  (l, some Err.typeError)

/-- Result of `InvariantDict.__delitem__`: raises `TypeError`, dict unchanged. -/
def invDelitem {α : Type} (l : List (Nat × α)) (_k : Nat) :
    List (Nat × α) × Option Err :=
  (l, some Err.typeError)

/-- Result of `InvariantDict.setdefault`: raises `TypeError`, dict unchanged. -/
def invSetdefault {α : Type} (l : List (Nat × α)) (_k : Nat) (_default : Option α) :
    List (Nat × α) × Option Err :=
  (l, some Err.typeError)

/-- Result of `InvariantDict.pop`: raises `TypeError`, dict unchanged. -/
def invPop {α : Type} (l : List (Nat × α)) (_k : Nat) (_default : Option α) :
    List (Nat × α) × Option Err :=
  (l, some Err.typeError)

/-- Method `InvariantDict.add`: `key = self.get_new_key(value);
dict.__setitem__(self, key, value); return key`. -/
def invAdd {α : Type} (g : List (Nat × α) → α → Nat) (l : List (Nat × α))
    (v : α) : List (Nat × α) × Nat :=
  let key := g l v
  (dictSet l key v, key)

/-- Strategy `ComponentRegistry.get_new_key`: `1 << len(self)`. -/
def componentRegistryNewKey {α : Type} (l : List (Nat × α)) (_v : α) : Nat :=
  1 <<< l.length

/-- Registry contents after a sequence of `add` calls starting from `l`. -/
def invAddN {α : Type} (g : List (Nat × α) → α → Nat) (l : List (Nat × α))
    (vs : List α) : List (Nat × α) :=
  vs.foldl (fun acc v => (invAdd g acc v).1) l

theorem dictKeys_length {α : Type} (l : List (Nat × α)) :
    (dictKeys l).length = l.length :=
  List.length_map l Prod.fst

theorem invAddN_concat {α : Type} (g : List (Nat × α) → α → Nat)
    (l : List (Nat × α)) (vs : List α) (v : α) :
    invAddN g l (vs ++ [v]) = (invAdd g (invAddN g l vs) v).1 := by
  unfold invAddN
  rw [List.foldl_concat]

theorem invAdd_fresh_keys {α : Type} (g : List (Nat × α) → α → Nat)
    (l : List (Nat × α)) (v : α) (h : g l v ∉ dictKeys l) :
    dictKeys (invAdd g l v).1 = dictKeys l ++ [g l v] := by
  unfold invAdd
  exact dictKeys_dictSet_not_mem l (g l v) v h

theorem invAddN_fresh_len_nodup {α : Type} (g : List (Nat × α) → α → Nat)
    (vs : List α)
    (hfresh : ∀ i (h : i < vs.length),
      g (invAddN g [] (vs.take i)) (vs.get ⟨i, h⟩) ∉
        dictKeys (invAddN g [] (vs.take i))) :
    (invAddN g [] vs).length = vs.length ∧
      (dictKeys (invAddN g [] vs)).Nodup := by
  induction vs using List.reverseRecOn with
  | nil =>
    constructor
    · rfl
    · exact List.nodup_nil
  | append_singleton vs v ih =>
    have hpre : ∀ i (h : i < vs.length),
        g (invAddN g [] (vs.take i)) (vs.get ⟨i, h⟩) ∉
          dictKeys (invAddN g [] (vs.take i)) := by
      intro i h
      have h2 : i < (vs ++ [v]).length := by
        rw [List.length_append, List.length_singleton]
        omega
      have htake : (vs ++ [v]).take i = vs.take i :=
        List.take_append_of_le_length (le_of_lt h)
      have hget : (vs ++ [v]).get ⟨i, h2⟩ = vs.get ⟨i, h⟩ := by
        simp only [List.get_eq_getElem]
        exact List.getElem_append_left h
      have hf := hfresh i h2
      rw [htake, hget] at hf
      exact hf
    have hlast : g (invAddN g [] vs) v ∉ dictKeys (invAddN g [] vs) := by
      have h2 : vs.length < (vs ++ [v]).length := by
        rw [List.length_append, List.length_singleton]
        omega
      have htake : (vs ++ [v]).take vs.length = vs :=
        List.take_left vs [v]
      have hget : (vs ++ [v]).get ⟨vs.length, h2⟩ = v := by
        simp only [List.get_eq_getElem]
        exact List.getElem_concat_length vs v vs.length rfl h2
      have hf := hfresh vs.length h2
      rw [htake, hget] at hf
      exact hf
    rcases ih hpre with ⟨hlen, hnodup⟩
    have hkeys := invAdd_fresh_keys g (invAddN g [] vs) v hlast
    rw [invAddN_concat]
    constructor
    · have hc := congrArg List.length hkeys
      rw [dictKeys_length, List.length_append, List.length_singleton,
        dictKeys_length] at hc
      rw [hc, hlen, List.length_append, List.length_singleton]
    · rw [hkeys, List.nodup_append]
      refine ⟨hnodup, List.nodup_singleton _, ?_⟩
      intro a ha hb
      rw [List.mem_singleton] at hb
      subst hb
      exact hlast ha

/-- C7: starting from an empty `InvariantDict`, `n` calls to `add` whose key
strategy always mints an unused key leave exactly `n` pairwise-distinct keys,
while `__setitem__`, `update`, `__delitem__`, `setdefault` and `pop` all raise
`TypeError` and leave any `InvariantDict` unchanged. -/
theorem invariantDict_append_only {α : Type} (g : List (Nat × α) → α → Nat)
    (vs : List α)
    (hfresh : ∀ i (h : i < vs.length),
      g (invAddN g [] (vs.take i)) (vs.get ⟨i, h⟩) ∉
        dictKeys (invAddN g [] (vs.take i))) :
    (invAddN g [] vs).length = vs.length ∧
      (dictKeys (invAddN g [] vs)).Nodup ∧
      (∀ (l : List (Nat × α)) k v, invSetitem l k v = (l, some Err.typeError)) ∧
      (∀ (l args : List (Nat × α)), invUpdate l args = (l, some Err.typeError)) ∧
      (∀ (l : List (Nat × α)) k, invDelitem l k = (l, some Err.typeError)) ∧
      (∀ (l : List (Nat × α)) k d, invSetdefault l k d = (l, some Err.typeError)) ∧
      (∀ (l : List (Nat × α)) k d, invPop l k d = (l, some Err.typeError)) :=
  ⟨(invAddN_fresh_len_nodup g vs hfresh).1,
    (invAddN_fresh_len_nodup g vs hfresh).2,
    fun _ _ _ => rfl, fun _ _ => rfl, fun _ _ => rfl,
    fun _ _ _ => rfl, fun _ _ _ => rfl⟩

/-
Entity Record (`_detail.py`, class `EntityRecord`).  The owning World's
`_component_types` registry is, as every consumer accesses it, a mapping from
a component class tag to its single-bit bitmask.
-/

/-- Component-type registry view used by lookups: class tag to bitmask. -/
abbrev Registry := List (Nat × Nat)

/-- Lookup `world._component_types[ctype]`, raising `KeyError` when the type
was never registered. -/
def lookupType (reg : Registry) (cls : Nat) : Except Err Nat :=
  match dictGet reg cls with
  | some b => Except.ok b
  | none => Except.error Err.keyError

/-- State of an `EntityRecord`: its dict part (single-bit key to component
value), its `bitmask` slot and its `id` slot. -/
structure EntityRecord where
  entries : List (Nat × Component)
  bitmask : Nat
  id : Nat
deriving DecidableEq

/-- Keys currently stored in an Entity Record. -/
def recKeys (r : EntityRecord) : List Nat :=
  dictKeys r.entries

/-- Aggregate of a list of keys: `reduce(or_, keys, 0)`. -/
def orKeys (l : List Nat) : Nat :=
  l.foldl (· ||| ·) 0

/-- Dict comprehension of `EntityRecord.__init__`:
`{self._world._component_types[c.__class__]: c for c in components}`
(a later component of an already-seen type overwrites the earlier one). -/
def recInitEntries (reg : Registry) (components : List Component) :
    Except Err (List (Nat × Component)) :=
  components.foldlM (fun l c => do
    let b ← lookupType reg c.cls
    pure (dictSet l b c)) []

/-- Constructor `EntityRecord.__init__`: build the entries, then
`self.bitmask = Bitmask(reduce(or_, self))`; iterating a dict yields its keys
and `reduce` with no initial value raises `TypeError` on an empty record. -/
def recInit (reg : Registry) (id : Nat) (components : List Component) :
    Except Err EntityRecord := do
  let entries ← recInitEntries reg components
  match dictKeys entries with
  | [] => Except.error Err.typeError
  | k :: ks => Except.ok ⟨entries, ks.foldl (· ||| ·) k, id⟩

/-- Method `EntityRecord.add`: `bitmask = self.get_new_key(value)` (a registry
lookup that can raise `KeyError`), then `dict.__setitem__(self, bitmask,
value); self.bitmask |= bitmask; return bitmask`. -/
def recAdd (reg : Registry) (r : EntityRecord) (c : Component) :
    Except Err (EntityRecord × Nat) := do
  let b ← lookupType reg c.cls
  pure ({ r with entries := dictSet r.entries b c, bitmask := r.bitmask ||| b }, b)

/-- Method `EntityRecord.__delitem__`: `dict.__delitem__(self, key)` raises
`KeyError` when the key is absent — before `self.bitmask ^= key` runs — and
otherwise removes the entry and XORs the bit out of the aggregate. -/
def recDelitem (r : EntityRecord) (b : Nat) : Except Err EntityRecord :=
  if b ∈ recKeys r then
    Except.ok { r with entries := dictDel r.entries b, bitmask := r.bitmask ^^^ b }
  else
    Except.error Err.keyError

/-- Method `EntityRecord.clear`: `dict.clear(self); self.bitmask &= 0`. -/
def recClear (r : EntityRecord) : EntityRecord :=
  { r with entries := [], bitmask := r.bitmask &&& 0 }

/-- Record-level operations of the Entity Record interface. -/
inductive RecOp where
  | add (c : Component)
  | remove (b : Nat)
  | clear
deriving DecidableEq

/-- Run one record operation.  A raised exception propagates before any field
of the record is mutated, so the record is unchanged on error. -/
def runRecOp (reg : Registry) (r : EntityRecord) : RecOp → EntityRecord
  | RecOp.add c =>
    match recAdd reg r c with
    | Except.ok rb => rb.1
    | Except.error _ => r
  | RecOp.remove b =>
    match recDelitem r b with
    | Except.ok r2 => r2
    | Except.error _ => r
  | RecOp.clear => recClear r

/-- Run a sequence of record operations. -/
def runRecOps (reg : Registry) (r : EntityRecord) (ops : List RecOp) : EntityRecord :=
  ops.foldl (runRecOp reg) r

/-- Well-formed component-type registry: every assigned bitmask is a single
bit, as the Component Type Registry guarantees (`1 << n`). -/
def RegWF (reg : Registry) : Prop :=
  ∀ p ∈ reg, ∃ i, p.2 = 2 ^ i

/-- Record invariant: the aggregate equals the OR of the stored keys, and
every stored key is a single bit. -/
def RecWF (r : EntityRecord) : Prop :=
  r.bitmask = orKeys (recKeys r) ∧ ∀ k ∈ recKeys r, ∃ i, k = 2 ^ i

theorem dictGet_mem {α : Type} (l : List (Nat × α)) (k : Nat) (v : α)
    (h : dictGet l k = some v) : ∃ p ∈ l, p.2 = v := by
  induction l with
  | nil => cases h
  | cons p rest ih =>
    rw [dictGet] at h
    by_cases hp : p.1 = k
    · rw [if_pos hp] at h
      injection h with h
      exact ⟨p, List.mem_cons_self p rest, h⟩
    · rw [if_neg hp] at h
      rcases ih h with ⟨q, hq, hv⟩
      exact ⟨q, List.mem_cons_of_mem p hq, hv⟩

theorem dictKeys_dictDel {α : Type} (l : List (Nat × α)) (k : Nat) :
    dictKeys (dictDel l k) = (dictKeys l).filter (fun x => x ≠ k) := by
  induction l with
  | nil => rfl
  | cons p rest ih =>
    by_cases hp : p.1 = k
    · simp [dictDel, dictKeys, List.filter_cons, hp] at ih ⊢
      exact ih
    · simp [dictDel, dictKeys, List.filter_cons, hp] at ih ⊢
      exact ih

theorem testBit_foldl_or (l : List Nat) (x i : Nat) :
    (l.foldl (· ||| ·) x).testBit i = true ↔
      x.testBit i = true ∨ ∃ k ∈ l, k.testBit i = true := by
  induction l generalizing x with
  | nil => simp
  | cons a rest ih =>
    rw [List.foldl_cons, ih]
    constructor
    · rintro (h | h)
      · rw [Nat.testBit_or, Bool.or_eq_true] at h
        rcases h with h | h
        · exact Or.inl h
        · exact Or.inr ⟨a, List.mem_cons_self a rest, h⟩
      · rcases h with ⟨k, hk, ht⟩
        exact Or.inr ⟨k, List.mem_cons_of_mem a hk, ht⟩
    · rintro (h | ⟨k, hk, ht⟩)
      · left
        rw [Nat.testBit_or, Bool.or_eq_true]
        exact Or.inl h
      · rcases List.mem_cons.mp hk with rfl | hk2
        · left
          rw [Nat.testBit_or, Bool.or_eq_true]
          exact Or.inr ht
        · exact Or.inr ⟨k, hk2, ht⟩

theorem testBit_orKeys (l : List Nat) (i : Nat) :
    (orKeys l).testBit i = true ↔ ∃ k ∈ l, k.testBit i = true := by
  unfold orKeys
  rw [testBit_foldl_or]
  simp

theorem testBit_orKeys_pow2 (l : List Nat) (h : ∀ k ∈ l, ∃ j, k = 2 ^ j)
    (i : Nat) : (orKeys l).testBit i = true ↔ 2 ^ i ∈ l := by
  rw [testBit_orKeys]
  constructor
  · rintro ⟨k, hk, ht⟩
    rcases h k hk with ⟨j, rfl⟩
    rw [Nat.testBit_two_pow] at ht
    have hji : j = i := of_decide_eq_true ht
    subst hji
    exact hk
  · intro hk
    exact ⟨2 ^ i, hk, Nat.testBit_two_pow_self⟩

theorem lookupType_pow2 (reg : Registry) (hreg : RegWF reg) (cls b : Nat)
    (h : lookupType reg cls = Except.ok b) : ∃ i, b = 2 ^ i := by
  unfold lookupType at h
  rcases hg : dictGet reg cls with _ | v
  · rw [hg] at h
    cases h
  · rw [hg] at h
    injection h with h
    rcases dictGet_mem reg cls v hg with ⟨p, hp, hv⟩
    rcases hreg p hp with ⟨i, hi⟩
    exact ⟨i, by rw [← h, ← hv, hi]⟩

theorem orKeys_concat (l : List Nat) (b : Nat) :
    orKeys (l ++ [b]) = orKeys l ||| b := by
  unfold orKeys
  rw [List.foldl_concat]

theorem orKeys_absorb (l : List Nat) (b : Nat) (hp : ∀ k ∈ l, ∃ j, k = 2 ^ j)
    (hb : b ∈ l) : orKeys l ||| b = orKeys l := by
  apply Nat.eq_of_testBit_eq
  intro i
  rw [Nat.testBit_or]
  cases hbi : b.testBit i
  · simp
  · rcases hp b hb with ⟨j, rfl⟩
    rw [Nat.testBit_two_pow] at hbi
    have hji : j = i := of_decide_eq_true hbi
    subst hji
    have : (orKeys l).testBit j = true := (testBit_orKeys_pow2 l hp j).mpr hb
    simp [this]

theorem recWF_add (reg : Registry) (hreg : RegWF reg) (r : EntityRecord)
    (c : Component) (rb : EntityRecord × Nat)
    (h : recAdd reg r c = Except.ok rb) (hwf : RecWF r) : RecWF rb.1 := by
  unfold recAdd at h
  rcases hl : lookupType reg c.cls with e | b
  · rw [hl] at h
    cases h
  · rw [hl] at h
    injection h with h
    subst h
    rcases lookupType_pow2 reg hreg c.cls b hl with ⟨j, hj⟩
    constructor
    · show r.bitmask ||| b = orKeys (dictKeys (dictSet r.entries b c))
      by_cases hb : b ∈ recKeys r
      · rw [dictKeys_dictSet_mem r.entries b c hb]
        rw [hwf.1]
        exact orKeys_absorb (recKeys r) b hwf.2 hb
      · rw [dictKeys_dictSet_not_mem r.entries b c hb, orKeys_concat, hwf.1]
        rfl
    · show ∀ k ∈ dictKeys (dictSet r.entries b c), ∃ i, k = 2 ^ i
      intro k hk
      by_cases hb : b ∈ recKeys r
      · rw [dictKeys_dictSet_mem r.entries b c hb] at hk
        exact hwf.2 k hk
      · rw [dictKeys_dictSet_not_mem r.entries b c hb, List.mem_append] at hk
        rcases hk with hk | hk
        · exact hwf.2 k hk
        · rw [List.mem_singleton] at hk
          subst hk
          exact ⟨j, hj⟩

theorem recWF_delitem (r : EntityRecord) (b : Nat) (r2 : EntityRecord)
    (h : recDelitem r b = Except.ok r2) (hwf : RecWF r) : RecWF r2 := by
  unfold recDelitem at h
  by_cases hb : b ∈ recKeys r
  · rw [if_pos hb] at h
    injection h with h
    subst h
    rcases hwf.2 b hb with ⟨j, hj⟩
    have hkeys2 : dictKeys (dictDel r.entries b) =
        (recKeys r).filter (fun x => x ≠ b) :=
      dictKeys_dictDel r.entries b
    have hpow2 : ∀ k ∈ (recKeys r).filter (fun x => x ≠ b), ∃ i, k = 2 ^ i := by
      intro k hk
      exact hwf.2 k (List.mem_of_mem_filter hk)
    constructor
    · show r.bitmask ^^^ b = orKeys (dictKeys (dictDel r.entries b))
      rw [hkeys2]
      apply Nat.eq_of_testBit_eq
      intro i
      rw [Nat.testBit_xor, hwf.1]
      by_cases hij : j = i
      · subst hij
        subst hj
        have hL : (orKeys (recKeys r)).testBit j = true :=
          (testBit_orKeys_pow2 (recKeys r) hwf.2 j).mpr hb
        have hR : (orKeys ((recKeys r).filter (fun x => x ≠ 2 ^ j))).testBit j
            = false := by
          rcases hR2 : (orKeys ((recKeys r).filter (fun x => x ≠ 2 ^ j))).testBit j
            with _ | _
          · rfl
          · have := (testBit_orKeys_pow2 _ hpow2 j).mp hR2
            rw [List.mem_filter] at this
            simp at this
        rw [hL, hR, Nat.testBit_two_pow_self]
        rfl
      · subst hj
        have hbi : (2 ^ j).testBit i = false := Nat.testBit_two_pow_of_ne hij
        rw [hbi]
        have hne : 2 ^ i ≠ 2 ^ j := by
          intro hcon
          exact hij (Nat.pow_right_injective (le_refl 2) hcon).symm
        cases hK : (orKeys (recKeys r)).testBit i
        · rcases hR2 : (orKeys ((recKeys r).filter (fun x => x ≠ 2 ^ j))).testBit i
            with _ | _
          · rfl
          · have := (testBit_orKeys_pow2 _ hpow2 i).mp hR2
            rw [List.mem_filter] at this
            have := (testBit_orKeys_pow2 (recKeys r) hwf.2 i).mpr this.1
            rw [this] at hK
            cases hK
        · have hmem : 2 ^ i ∈ recKeys r :=
            (testBit_orKeys_pow2 (recKeys r) hwf.2 i).mp hK
          have : (orKeys ((recKeys r).filter (fun x => x ≠ 2 ^ j))).testBit i
              = true := by
            apply (testBit_orKeys_pow2 _ hpow2 i).mpr
            rw [List.mem_filter]
            exact ⟨hmem, by simpa using hne⟩
          rw [this]
          rfl
    · show ∀ k ∈ dictKeys (dictDel r.entries b), ∃ i, k = 2 ^ i
      rw [hkeys2]
      exact hpow2
  · rw [if_neg hb] at h
    cases h

theorem recWF_clear (r : EntityRecord) : RecWF (recClear r) := by
  constructor
  · show r.bitmask &&& 0 = orKeys (dictKeys ([] : List (Nat × Component)))
    rw [Nat.and_zero]
    rfl
  · intro k hk
    cases hk

theorem recInitEntries_pow2 (reg : Registry) (hreg : RegWF reg) :
    ∀ (comps : List Component) (acc entries : List (Nat × Component)),
      (∀ k ∈ dictKeys acc, ∃ i, k = 2 ^ i) →
      comps.foldlM (fun l c => do
        let b ← lookupType reg c.cls
        pure (dictSet l b c)) acc = Except.ok entries →
      ∀ k ∈ dictKeys entries, ∃ i, k = 2 ^ i := by
  intro comps
  induction comps with
  | nil =>
    intro acc entries hacc h
    rw [List.foldlM_nil] at h
    injection h with h
    subst h
    exact hacc
  | cons c rest ih =>
    intro acc entries hacc h
    rw [List.foldlM_cons] at h
    rcases hl : lookupType reg c.cls with e | b
    · rw [hl] at h
      simp only [exceptBind_error] at h
      cases h
    · rw [hl] at h
      simp only [exceptBind_ok, exceptPure] at h
      rcases lookupType_pow2 reg hreg c.cls b hl with ⟨j, hj⟩
      refine ih (dictSet acc b c) entries ?_ h
      intro k hk
      by_cases hb : b ∈ dictKeys acc
      · rw [dictKeys_dictSet_mem acc b c hb] at hk
        exact hacc k hk
      · rw [dictKeys_dictSet_not_mem acc b c hb, List.mem_append] at hk
        rcases hk with hk | hk
        · exact hacc k hk
        · rw [List.mem_singleton] at hk
          subst hk
          exact ⟨j, hj⟩

theorem recWF_init (reg : Registry) (hreg : RegWF reg) (eid : Nat)
    (comps : List Component) (r : EntityRecord)
    (h : recInit reg eid comps = Except.ok r) : RecWF r := by
  unfold recInit at h
  rcases he : recInitEntries reg comps with e | entries
  · rw [he] at h
    simp only [exceptBind_error] at h
    cases h
  · rw [he] at h
    simp only [exceptBind_ok, exceptPure] at h
    rcases hk : dictKeys entries with _ | ⟨k, ks⟩
    · rw [hk] at h
      cases h
    · rw [hk] at h
      injection h with h
      subst h
      have hpow2 : ∀ k2 ∈ dictKeys entries, ∃ i, k2 = 2 ^ i :=
        recInitEntries_pow2 reg hreg comps [] entries
          (fun k2 hk2 => absurd hk2 (List.not_mem_nil k2)) he
      constructor
      · show ks.foldl (· ||| ·) k = orKeys (dictKeys entries)
        rw [hk]
        unfold orKeys
        rw [List.foldl_cons, Nat.zero_or]
      · show ∀ k2 ∈ dictKeys entries, ∃ i, k2 = 2 ^ i
        exact hpow2

theorem recWF_step (reg : Registry) (hreg : RegWF reg) (r : EntityRecord)
    (op : RecOp) (hwf : RecWF r) : RecWF (runRecOp reg r op) := by
  cases op with
  | add c =>
    rcases h : recAdd reg r c with e | rb
    · simp only [runRecOp, h]
      exact hwf
    · simp only [runRecOp, h]
      exact recWF_add reg hreg r c rb h hwf
  | remove b =>
    rcases h : recDelitem r b with e | r2
    · simp only [runRecOp, h]
      exact hwf
    · simp only [runRecOp, h]
      exact recWF_delitem r b r2 h hwf
  | clear => exact recWF_clear r

theorem recWF_runOps (reg : Registry) (hreg : RegWF reg) (ops : List RecOp) :
    ∀ r, RecWF r → RecWF (runRecOps reg r ops) := by
  induction ops with
  | nil =>
    intro r hwf
    exact hwf
  | cons op rest ih =>
    intro r hwf
    rw [runRecOps, List.foldl_cons]
    exact ih (runRecOp reg r op) (recWF_step reg hreg r op hwf)

/-- C5: for every Entity Record built by the constructor over a well-formed
component-type registry, after any sequence of `add`, `remove` and `clear`
operations the aggregate bitmask equals the bitwise OR of the currently
stored single-bit keys. -/
theorem entity_record_aggregate_invariant (reg : Registry) (hreg : RegWF reg)
    (eid : Nat) (comps : List Component) (r0 : EntityRecord)
    (hinit : recInit reg eid comps = Except.ok r0) (ops : List RecOp) :
    (runRecOps reg r0 ops).bitmask = orKeys (recKeys (runRecOps reg r0 ops)) :=
  (recWF_runOps reg hreg ops r0 (recWF_init reg hreg eid comps r0 hinit)).1

theorem entity_record_aggregate_invariant_witness :
    (runRecOps [(0, 1), (1, 2)] ⟨[(1, ⟨0, 7⟩)], 1, 0⟩
      [RecOp.add ⟨1, 8⟩, RecOp.remove 1, RecOp.clear]).bitmask =
      orKeys (recKeys (runRecOps [(0, 1), (1, 2)] ⟨[(1, ⟨0, 7⟩)], 1, 0⟩
        [RecOp.add ⟨1, 8⟩, RecOp.remove 1, RecOp.clear])) :=
  entity_record_aggregate_invariant [(0, 1), (1, 2)]
    (by
      intro p hp
      rcases List.mem_cons.mp hp with rfl | hp2
      · exact ⟨0, rfl⟩
      · rcases List.mem_cons.mp hp2 with rfl | hp3
        · exact ⟨1, rfl⟩
        · cases hp3)
    0 [⟨0, 7⟩] ⟨[(1, ⟨0, 7⟩)], 1, 0⟩ (by decide)
    [RecOp.add ⟨1, 8⟩, RecOp.remove 1, RecOp.clear]

/-- C10: removing a bit that is not currently a key of an Entity Record
raises `KeyError` and leaves the record — stored entries and aggregate alike —
unchanged: the dict deletion fails before the aggregate XOR update runs. -/
theorem recDelitem_absent_error (reg : Registry) (r : EntityRecord) (b : Nat)
    (h : b ∉ recKeys r) :
    recDelitem r b = Except.error Err.keyError ∧
      runRecOp reg r (RecOp.remove b) = r := by
  have h1 : recDelitem r b = Except.error Err.keyError := by
    unfold recDelitem
    rw [if_neg h]
  refine ⟨h1, ?_⟩
  simp only [runRecOp, h1]

theorem recDelitem_absent_error_witness :
    2 ∉ recKeys ⟨[(1, ⟨0, 7⟩)], 1, 0⟩ ∧
      (recDelitem ⟨[(1, ⟨0, 7⟩)], 1, 0⟩ 2 = Except.error Err.keyError ∧
        runRecOp [] ⟨[(1, ⟨0, 7⟩)], 1, 0⟩ (RecOp.remove 2) =
          ⟨[(1, ⟨0, 7⟩)], 1, 0⟩) :=
  ⟨by decide, recDelitem_absent_error [] ⟨[(1, ⟨0, 7⟩)], 1, 0⟩ 2 (by decide)⟩

/-
Processor registry and World (`world.py`).
-/

/-- A `ProcessorRecord` named tuple.  The behavior-unit instance is
identified by the class tag it was constructed from, which is what
`remove_processor` compares. -/
structure ProcessorRecord where
  processor : Nat
  component_bitmask : Nat
  order : List Nat
  priority : Int
deriving DecidableEq

/-- State of a `World`. -/
structure World where
  component_types : Registry
  entities : List (Nat × EntityRecord)
  entity_cache : List (Nat × List Nat)
  processors : List ProcessorRecord
  new_entity_id : Nat
deriving DecidableEq

/-- A freshly constructed `World` (`World.__init__`), with the component-type
registry as a parameter: claims about the entity-lifecycle operations
quantify over worlds whose registry is already populated. -/
def initWorld (reg : Registry) : World :=
  ⟨reg, [], [], [], 0⟩

/-- Method `World.component`: first `if self._processors: raise ValueError`,
then `self._component_types[1 << len(self._component_types)] = ctype`, which
dispatches to `InvariantDict.__setitem__` and therefore raises `TypeError`.
The component-type registry is never extended. -/
def registerComponent (w : World) (ctype : Nat) : World × Option Err :=
  if w.processors.isEmpty then
    match invSetitem w.component_types (1 <<< w.component_types.length) ctype with
    | (reg2, none) => ({ w with component_types := reg2 }, none)
    | (_, some e) => (w, some e)
  else
    (w, some Err.valueError)

/-- Method `World._get_bitmasks`: the bitmask of each component type in
argument order; `KeyError` for an unregistered type. -/
def getBitmasks (reg : Registry) (ctypes : List Nat) : Except Err (List Nat) :=
  ctypes.mapM (fun ct => lookupType reg ct)

/-- Inner loop of the `World.processor` decorator: scan the processor list
and, at the first record of strictly lower priority, build the bitmasks
(`KeyError` possible) and the record — whose `component_bitmask` is
`reduce(or_, bitmasks)`, raising `TypeError` when the type list is empty —
and insert it there.  When the scan falls off the end of the list without a
break, nothing at all is inserted. -/
def procInsertLoop (reg : Registry) (ptype : Nat) (ctypes : List Nat)
    (priority : Int) : List ProcessorRecord → Except Err (List ProcessorRecord)
  | [] => Except.ok []
  | p :: rest =>
    if p.priority < priority then
      match getBitmasks reg ctypes with
      | Except.error e => Except.error e
      | Except.ok [] => Except.error Err.typeError
      | Except.ok (b :: bs) =>
        Except.ok (⟨ptype, bs.foldl (· ||| ·) b, b :: bs, priority⟩ :: p :: rest)
    else
      match procInsertLoop reg ptype ctypes priority rest with
      | Except.error e => Except.error e
      | Except.ok rest2 => Except.ok (p :: rest2)

/-- Decorator `World.processor` applied to a behavior-unit class. -/
def registerProcessor (w : World) (ptype : Nat) (ctypes : List Nat)
    (priority : Int) : World × Option Err :=
  match procInsertLoop w.component_types ptype ctypes priority w.processors with
  | Except.ok ps => ({ w with processors := ps }, none)
  | Except.error e => (w, some e)

/-- A sequence of processor registrations, each a unit class tag with a
priority, all over the component-type list `[0]`. -/
def registerProcessorSeq (w : World) (ps : List (Nat × Int)) : World :=
  ps.foldl (fun w2 p => (registerProcessor w2 p.1 [0] p.2).1) w

/-- Method `World.remove_processor`: rebuilds the processor list from the
records satisfying `record.processor.__class__ == processor_type and
(priority is None or record.priority == priority)`. -/
def removeProcessor (w : World) (ptype : Nat) (priority : Option Int) : World :=
  { w with processors := w.processors.filter (fun r =>
      r.processor == ptype && (priority.isNone || priority == some r.priority)) }

/-- Statement `self._entity_cache.setdefault(bitmask, set()).add(entity_id)`. -/
def cacheAdd (cache : List (Nat × List Nat)) (b eid : Nat) :
    List (Nat × List Nat) :=
  match dictGet cache b with
  | some s => dictSet cache b (if eid ∈ s then s else s ++ [eid])
  | none => cache ++ [(b, [eid])]

/-- Statement `self._entity_cache[bitmask].remove(entity_id)` for the
single-bit keys the World passes here: `EntityCache.__getitem__` over a
single-bit mask returns the stored set itself (the one-element
`reduce(and_, ...)`), `dict.__getitem__` raises `KeyError` when the key is
absent, and `set.remove` raises `KeyError` when the member is absent. -/
def cacheDiscard (cache : List (Nat × List Nat)) (b eid : Nat) :
    Except Err (List (Nat × List Nat)) :=
  match dictGet cache b with
  | none => Except.error Err.keyError
  | some s =>
    if eid ∈ s then Except.ok (dictSet cache b (s.erase eid))
    else Except.error Err.keyError

/-- Method `EntityCache.__getitem__`:
`reduce(and_, (dict.__getitem__(self, bit) for bit in bitmask.bits))` —
`KeyError` when some set bit has no entry, `TypeError` (`reduce` of an empty
sequence) when the mask has no set bits, and the intersection of the per-bit
entity-identity sets otherwise. -/
def cacheLookup (cache : List (Nat × List Nat)) (v : Nat) :
    Except Err (List Nat) := do
  let sets ← (bits v).mapM (fun b =>
    match dictGet cache b with
    | some s => Except.ok s
    | none => Except.error Err.keyError)
  match sets with
  | [] => Except.error Err.typeError
  | s :: rest => Except.ok (rest.foldl (fun a t => a.filter t.contains) s)

/-- Method `World.create_entity`: build the record (an exception in the
constructor propagates before the World is touched), store it under the next
identity, record every key bit of the record in the cache, bump the counter
and return the identity. -/
def createEntity (w : World) (components : List Component) :
    World × Except Err Nat :=
  match recInit w.component_types w.new_entity_id components with
  | Except.error e => (w, Except.error e)
  | Except.ok record =>
    ({ w with
        entities := dictSet w.entities w.new_entity_id record,
        entity_cache := (recKeys record).foldl
          (fun c b => cacheAdd c b w.new_entity_id) w.entity_cache,
        new_entity_id := w.new_entity_id + 1 },
      Except.ok w.new_entity_id)

/-- Cache loop of `World.remove_entity`: forget the entity under each of its
key bits; on an exception the partially updated cache is kept. -/
def cacheDiscardAll (cache : List (Nat × List Nat)) (ks : List Nat)
    (eid : Nat) : List (Nat × List Nat) × Option Err :=
  match ks with
  | [] => (cache, none)
  | b :: rest =>
    match cacheDiscard cache b eid with
    | Except.error e => (cache, some e)
    | Except.ok c2 => cacheDiscardAll c2 rest eid

/-- Method `World.remove_entity`: forget the entity from the cache under each
of its bits, then delete its record; `KeyError` for an unknown identity, and
the record deletion does not happen when the cache loop raises. -/
def removeEntity (w : World) (eid : Nat) : World × Option Err :=
  match dictGet w.entities eid with
  | none => (w, some Err.keyError)
  | some record =>
    match cacheDiscardAll w.entity_cache (recKeys record) eid with
    | (c2, some e) => ({ w with entity_cache := c2 }, some e)
    | (c2, none) =>
      ({ w with entity_cache := c2, entities := dictDel w.entities eid }, none)

/-- Loop of `World.add_components`: `bitmask = record.add(component);
self._entity_cache.setdefault(bitmask, set()).add(entity_id)`; an exception
stops the loop keeping all earlier mutations. -/
def addComponentsGo (reg : Registry) (eid : Nat) :
    EntityRecord → List (Nat × List Nat) → List Component →
      EntityRecord × List (Nat × List Nat) × Option Err
  | r, cache, [] => (r, cache, none)
  | r, cache, c :: rest =>
    match recAdd reg r c with
    | Except.error e => (r, cache, some e)
    | Except.ok (r2, b) => addComponentsGo reg eid r2 (cacheAdd cache b eid) rest

/-- Method `World.add_components`. -/
def addComponents (w : World) (eid : Nat) (components : List Component) :
    World × Option Err :=
  match dictGet w.entities eid with
  | none => (w, some Err.keyError)
  | some r =>
    match addComponentsGo w.component_types eid r w.entity_cache components with
    | (r2, cache2, err) =>
      ({ w with entities := dictSet w.entities eid r2, entity_cache := cache2 }, err)

/-- Loop of `World.remove_components`: resolve the type to its bit, delete
from the record (`KeyError` propagates with nothing changed in this
iteration), then forget in the cache; an exception stops the loop keeping
all mutations already made. -/
def removeComponentsGo (reg : Registry) (eid : Nat) :
    EntityRecord → List (Nat × List Nat) → List Nat →
      EntityRecord × List (Nat × List Nat) × Option Err
  | r, cache, [] => (r, cache, none)
  | r, cache, ct :: rest =>
    match lookupType reg ct with
    | Except.error e => (r, cache, some e)
    | Except.ok b =>
      match recDelitem r b with
      | Except.error e => (r, cache, some e)
      | Except.ok r2 =>
        match cacheDiscard cache b eid with
        | Except.error e => (r2, cache, some e)
        | Except.ok cache2 => removeComponentsGo reg eid r2 cache2 rest

/-- Method `World.remove_components`. -/
def removeComponents (w : World) (eid : Nat) (ctypes : List Nat) :
    World × Option Err :=
  match dictGet w.entities eid with
  | none => (w, some Err.keyError)
  | some r =>
    match removeComponentsGo w.component_types eid r w.entity_cache ctypes with
    | (r2, cache2, err) =>
      ({ w with entities := dictSet w.entities eid r2, entity_cache := cache2 }, err)

/-- Method `World.get_entities_by_bitmask`: the Entity Records of the cached
identities for the mask. -/
def getEntitiesByBitmask (w : World) (v : Nat) :
    Except Err (List EntityRecord) := do
  let ids ← cacheLookup w.entity_cache v
  ids.mapM (fun eid =>
    match dictGet w.entities eid with
    | some r => Except.ok r
    | none => Except.error Err.keyError)

/-- Method `World.clear`: fresh registry, entity map, cache and processor
list, identity counter restarted at 0. -/
def clearWorld (_w : World) : World :=
  ⟨[], [], [], [], 0⟩

/-- C1: `World.component` never succeeds — with no processor registered the
assignment `self._component_types[1 << len(...)] = ctype` dispatches to
`InvariantDict.__setitem__` and raises `TypeError` (with a processor present
it raises `ValueError` first) — so no component type ever receives a key,
contradicting the claimed successful `1 << k` assignment. -/
theorem register_component_always_raises (w : World) (ctype : Nat) :
    registerComponent w ctype =
      (w, some (if w.processors.isEmpty then Err.typeError
        else Err.valueError)) := by
  unfold registerComponent invSetitem
  by_cases h : w.processors.isEmpty <;> simp [h]

/-- C2: registering processors with priorities `[5, 1, 5, 3]` — the
specification's scenario — into a fresh World leaves the Processor Registry
empty instead of `[5, 5, 3, 1]`: the insertion loop only inserts in front of
an existing record of strictly lower priority and has no fallback append, so
registration into an empty registry (and hence every later one) inserts
nothing. -/
theorem processor_priority_ordering_bug :
    (registerProcessorSeq (initWorld [(0, 1)])
      [(10, 5), (11, 1), (12, 5), (13, 3)]).processors = [] := rfl

/-- C3: with records for unit classes 0 and 1 (priorities 1 and 2),
`remove_processor(class 0)` keeps exactly the class-0 record and deletes the
class-1 record — the filter keeps the matching records instead of removing
them, the opposite of the claimed behavior. -/
theorem remove_processor_keeps_matches :
    removeProcessor ⟨[], [], [], [⟨0, 1, [1], 1⟩, ⟨1, 1, [1], 2⟩], 0⟩ 0 none =
      ⟨[], [], [], [⟨0, 1, [1], 1⟩], 0⟩ := rfl

/-- C9: `clear()` does reset the World to its freshly constructed state
(empty registry, no entities, empty cache, no processors, identity counter
0), but the scenario's subsequent `create_entity()` with no components
raises `TypeError` — `Bitmask(reduce(or_, self))` in `EntityRecord.__init__`
has no initial value and the new record is empty — instead of returning
identity 0, and the cleared World is left unchanged by the attempt. -/
theorem clear_resets_but_empty_create_raises (w : World) :
    clearWorld w = initWorld [] ∧
      (createEntity (clearWorld w) []).2 = Except.error Err.typeError ∧
      (createEntity (clearWorld w) []).1 = clearWorld w :=
  ⟨rfl, rfl, rfl⟩

theorem invariantDict_append_only_witness :
    (invAddN componentRegistryNewKey [] ([5, 6, 7] : List Nat)).length =
        ([5, 6, 7] : List Nat).length ∧
      (dictKeys (invAddN componentRegistryNewKey [] ([5, 6, 7] : List Nat))).Nodup ∧
      (∀ (l : List (Nat × Nat)) k v, invSetitem l k v = (l, some Err.typeError)) ∧
      (∀ (l args : List (Nat × Nat)), invUpdate l args = (l, some Err.typeError)) ∧
      (∀ (l : List (Nat × Nat)) k, invDelitem l k = (l, some Err.typeError)) ∧
      (∀ (l : List (Nat × Nat)) k d, invSetdefault l k d = (l, some Err.typeError)) ∧
      (∀ (l : List (Nat × Nat)) k d, invPop l k d = (l, some Err.typeError)) :=
  invariantDict_append_only componentRegistryNewKey [5, 6, 7] (by decide)

theorem sorted_mem_singleton (l : List Nat) (x : Nat)
    (hs : l.Pairwise (· < ·)) (hm : ∀ b, b ∈ l ↔ b = x) : l = [x] := by
  cases l with
  | nil =>
    exact absurd ((hm x).mpr rfl) (List.not_mem_nil x)
  | cons a rest =>
    have ha : a = x := (hm a).mp (List.mem_cons_self a rest)
    subst ha
    cases rest with
    | nil => rfl
    | cons c rest2 =>
      have hc : c = a :=
        (hm c).mp (List.mem_cons_of_mem a (List.mem_cons_self c rest2))
      have hlt : a < c := (List.pairwise_cons.mp hs).1 c (List.mem_cons_self c rest2)
      omega

theorem sorted_mem_pair (l : List Nat) (x y : Nat) (hxy : x < y)
    (hs : l.Pairwise (· < ·)) (hm : ∀ b, b ∈ l ↔ b = x ∨ b = y) :
    l = [x, y] := by
  cases l with
  | nil =>
    exact absurd ((hm x).mpr (Or.inl rfl)) (List.not_mem_nil x)
  | cons a rest =>
    have hx : x ∈ a :: rest := (hm x).mpr (Or.inl rfl)
    have hy : y ∈ a :: rest := (hm y).mpr (Or.inr rfl)
    have hrest : ∀ b ∈ rest, a < b := (List.pairwise_cons.mp hs).1
    have ha : a = x := by
      rcases (hm a).mp (List.mem_cons_self a rest) with h | h
      · exact h
      · subst h
        rcases List.mem_cons.mp hx with h2 | h2
        · omega
        · have := hrest x h2
          omega
    subst ha
    have hyrest : y ∈ rest := by
      rcases List.mem_cons.mp hy with h2 | h2
      · omega
      · exact h2
    cases rest with
    | nil => cases hyrest
    | cons c rest2 =>
      have hc : c = y := by
        rcases (hm c).mp
          (List.mem_cons_of_mem a (List.mem_cons_self c rest2)) with h | h
        · have := hrest c (List.mem_cons_self c rest2)
          omega
        · exact h
      subst hc
      cases rest2 with
      | nil => rfl
      | cons d rest3 =>
        have hd : d ∈ c :: d :: rest3 :=
          List.mem_cons_of_mem c (List.mem_cons_self d rest3)
        have hcd : c < d :=
          (List.pairwise_cons.mp (List.pairwise_cons.mp hs).2).1 d
            (List.mem_cons_self d rest3)
        rcases (hm d).mp (List.mem_cons_of_mem a hd) with h | h
        · have := hrest d (List.mem_cons_of_mem c (List.mem_cons_self d rest3))
          omega
        · omega

theorem bits_two_pow (i : Nat) : bits (2 ^ i) = [2 ^ i] := by
  apply sorted_mem_singleton
  · exact (bits_mem_and_sorted (2 ^ i)).2
  · intro b
    rw [(bits_mem_and_sorted (2 ^ i)).1 b]
    constructor
    · rintro ⟨j, ht, rfl⟩
      rw [Nat.testBit_two_pow] at ht
      have := of_decide_eq_true ht
      rw [this]
    · rintro rfl
      exact ⟨i, Nat.testBit_two_pow_self, rfl⟩

theorem bits_two_pow_or (i j : Nat) (hij : i < j) :
    bits (2 ^ i ||| 2 ^ j) = [2 ^ i, 2 ^ j] := by
  apply sorted_mem_pair
  · exact Nat.pow_lt_pow_right (by norm_num) hij
  · exact (bits_mem_and_sorted (2 ^ i ||| 2 ^ j)).2
  · intro b
    rw [(bits_mem_and_sorted (2 ^ i ||| 2 ^ j)).1 b]
    constructor
    · rintro ⟨k, ht, rfl⟩
      rw [Nat.testBit_or, Bool.or_eq_true, Nat.testBit_two_pow,
        Nat.testBit_two_pow] at ht
      rcases ht with ht | ht
      · have := of_decide_eq_true ht
        rw [this]
        exact Or.inl rfl
      · have := of_decide_eq_true ht
        rw [this]
        exact Or.inr rfl
    · rintro (rfl | rfl)
      · refine ⟨i, ?_, rfl⟩
        rw [Nat.testBit_or, Nat.testBit_two_pow_self, Bool.true_or]
      · refine ⟨j, ?_, rfl⟩
        rw [Nat.testBit_or, Nat.testBit_two_pow_self, Bool.or_true]

theorem mapM_except_ok {β : Type} (f : Nat → Except Err β) :
    ∀ (l : List Nat), (∀ x ∈ l, ∃ y, f x = Except.ok y) →
      ∃ ys, l.mapM f = Except.ok ys ∧ ys.length = l.length ∧
        (∀ y ∈ ys, ∃ x ∈ l, f x = Except.ok y) ∧
        (∀ x ∈ l, ∀ y, f x = Except.ok y → y ∈ ys) := by
  intro l
  induction l with
  | nil =>
    intro _
    refine ⟨[], ?_, rfl, ?_, ?_⟩
    · rw [List.mapM_nil]
      rfl
    · intro y hy
      cases hy
    · intro x hx
      cases hx
  | cons a rest ih =>
    intro h
    rcases h a (List.mem_cons_self a rest) with ⟨y0, hy0⟩
    rcases ih (fun x hx => h x (List.mem_cons_of_mem a hx)) with
      ⟨ys, hys, hlen, hmem, hall⟩
    refine ⟨y0 :: ys, ?_, ?_, ?_, ?_⟩
    · rw [List.mapM_cons, hy0, exceptBind_ok, hys, exceptBind_ok, exceptPure]
    · rw [List.length_cons, List.length_cons, hlen]
    · intro y hy
      rcases List.mem_cons.mp hy with rfl | hy2
      · exact ⟨a, List.mem_cons_self a rest, hy0⟩
      · rcases hmem y hy2 with ⟨x, hx, hfx⟩
        exact ⟨x, List.mem_cons_of_mem a hx, hfx⟩
    · intro x hx y hfy
      rcases List.mem_cons.mp hx with rfl | hx2
      · rw [hy0] at hfy
        injection hfy with hfy
        rw [← hfy]
        exact List.mem_cons_self y0 ys
      · exact List.mem_cons_of_mem y0 (hall x hx2 y hfy)

theorem mem_foldl_inter (sets : List (List Nat)) :
    ∀ (s : List Nat) (x : Nat),
      x ∈ sets.foldl (fun a t => a.filter t.contains) s ↔
        x ∈ s ∧ ∀ t ∈ sets, x ∈ t := by
  induction sets with
  | nil =>
    intro s x
    simp
  | cons t rest ih =>
    intro s x
    rw [List.foldl_cons, ih]
    rw [List.mem_filter]
    constructor
    · rintro ⟨⟨hx, hc⟩, hall⟩
      refine ⟨hx, ?_⟩
      intro u hu
      rcases List.mem_cons.mp hu with rfl | hu2
      · exact List.elem_iff.mp hc
      · exact hall u hu2
    · rintro ⟨hx, hall⟩
      refine ⟨⟨hx, ?_⟩, ?_⟩
      · exact List.elem_iff.mpr (hall t (List.mem_cons_self t rest))
      · intro u hu
        exact hall u (List.mem_cons_of_mem t hu)

theorem cacheLookup_ok (cache : List (Nat × List Nat)) (v : Nat) (hv : v ≠ 0)
    (hall : ∀ b ∈ bits v, ∃ s, dictGet cache b = some s) :
    ∃ S, cacheLookup cache v = Except.ok S ∧
      ∀ x, x ∈ S ↔ ∀ b ∈ bits v, ∀ s, dictGet cache b = some s → x ∈ s := by
  have hf : ∀ b ∈ bits v, ∃ s,
      (match dictGet cache b with
        | some s => Except.ok s
        | none => Except.error Err.keyError) = Except.ok s := by
    intro b hb
    rcases hall b hb with ⟨s, hs⟩
    exact ⟨s, by rw [hs]⟩
  rcases mapM_except_ok _ (bits v) hf with ⟨ys, hys, hlen, hmem, hallmem⟩
  have hne : bits v ≠ [] := by
    rcases Nat.ne_zero_implies_bit_true hv with ⟨i, hi⟩
    intro hcon
    have : 2 ^ i ∈ bits v :=
      ((bits_mem_and_sorted v).1 (2 ^ i)).mpr ⟨i, hi, rfl⟩
    rw [hcon] at this
    cases this
  rcases hy : ys with _ | ⟨s, rest⟩
  · rw [hy] at hlen
    rcases hb : bits v with _ | ⟨b0, brest⟩
    · exact absurd hb hne
    · rw [hb] at hlen
      cases hlen
  · rw [hy] at hys hmem hallmem
    refine ⟨rest.foldl (fun a t => a.filter t.contains) s, ?_, ?_⟩
    · unfold cacheLookup
      rw [hys, exceptBind_ok]
    · intro x
      rw [mem_foldl_inter]
      constructor
      · rintro ⟨hxs, hxall⟩
        intro b hb s2 hs2
        have hfb : (match dictGet cache b with
            | some s => Except.ok s
            | none => Except.error Err.keyError) = Except.ok s2 := by
          rw [hs2]
        have hs2mem := hallmem b hb s2 hfb
        rcases List.mem_cons.mp hs2mem with rfl | h2
        · exact hxs
        · exact hxall s2 h2
      · intro hper
        have hts : ∀ t ∈ s :: rest, x ∈ t := by
          intro t ht
          rcases hmem t ht with ⟨b, hb, hfb⟩
          rcases hall b hb with ⟨s2, hs2⟩
          rw [hs2] at hfb
          injection hfb with hfb
          subst hfb
          exact hper b hb s2 hs2
        exact ⟨hts s (List.mem_cons_self s rest),
          fun t ht => hts t (List.mem_cons_of_mem s ht)⟩

theorem cacheLookup_single (cache : List (Nat × List Nat)) (i : Nat)
    (sA : List Nat) (hA : dictGet cache (2 ^ i) = some sA) :
    cacheLookup cache (2 ^ i) = Except.ok sA := by
  unfold cacheLookup
  rw [bits_two_pow i]
  rw [List.mapM_cons, List.mapM_nil]
  simp only [hA, exceptBind_ok, exceptPure]
  rfl

theorem cacheLookup_pair (cache : List (Nat × List Nat)) (i j : Nat)
    (hij : i < j) (sA sB : List Nat) (hA : dictGet cache (2 ^ i) = some sA)
    (hB : dictGet cache (2 ^ j) = some sB) :
    cacheLookup cache (2 ^ i ||| 2 ^ j) = Except.ok (sA.filter sB.contains) := by
  unfold cacheLookup
  rw [bits_two_pow_or i j hij]
  rw [List.mapM_cons, List.mapM_cons, List.mapM_nil]
  simp only [hA, hB, exceptBind_ok, exceptPure]
  rfl

/-- C6: for a composite mask with at least one set bit, all of whose set bits
have cache entries, `EntityCache.__getitem__` returns the intersection of the
per-bit entity-identity sets; in particular, for distinct single bits
`2 ^ i` and `2 ^ j` with populated entries, `get_entities_by_bitmask` of
their union yields exactly the records of the identities lying in both
per-bit lookups. -/
theorem cache_query_intersection :
    (∀ (cache : List (Nat × List Nat)) (v : Nat), v ≠ 0 →
      (∀ b ∈ bits v, ∃ s, dictGet cache b = some s) →
      ∃ S, cacheLookup cache v = Except.ok S ∧
        ∀ x, x ∈ S ↔ ∀ b ∈ bits v, ∀ s, dictGet cache b = some s → x ∈ s) ∧
    (∀ (w : World) (i j : Nat), i ≠ j → ∀ (sA sB : List Nat),
      dictGet w.entity_cache (2 ^ i) = some sA →
      dictGet w.entity_cache (2 ^ j) = some sB →
      (∀ x, x ∈ sA → x ∈ sB → ∃ r, dictGet w.entities x = some r) →
      cacheLookup w.entity_cache (2 ^ i) = Except.ok sA ∧
      cacheLookup w.entity_cache (2 ^ j) = Except.ok sB ∧
      ∃ S recs,
        cacheLookup w.entity_cache (2 ^ i ||| 2 ^ j) = Except.ok S ∧
        getEntitiesByBitmask w (2 ^ i ||| 2 ^ j) = Except.ok recs ∧
        (∀ x, x ∈ S ↔ x ∈ sA ∧ x ∈ sB) ∧
        (∀ r, r ∈ recs ↔ ∃ x ∈ S, dictGet w.entities x = some r)) := by
  constructor
  · exact cacheLookup_ok
  · intro w i j hij sA sB hA hB hrec
    have hcase : i < j ∨ j < i := by omega
    obtain ⟨S, hlookup, hSmem⟩ :
        ∃ S, cacheLookup w.entity_cache (2 ^ i ||| 2 ^ j) = Except.ok S ∧
          ∀ x, x ∈ S ↔ x ∈ sA ∧ x ∈ sB := by
      rcases hcase with hlt | hlt
      · refine ⟨sA.filter sB.contains,
          cacheLookup_pair w.entity_cache i j hlt sA sB hA hB, ?_⟩
        intro x
        rw [List.mem_filter]
        constructor
        · rintro ⟨h1, h2⟩
          exact ⟨h1, List.elem_iff.mp h2⟩
        · rintro ⟨h1, h2⟩
          exact ⟨h1, List.elem_iff.mpr h2⟩
      · have hor : 2 ^ i ||| 2 ^ j = 2 ^ j ||| 2 ^ i := Nat.or_comm _ _
        rw [hor]
        refine ⟨sB.filter sA.contains,
          cacheLookup_pair w.entity_cache j i hlt sB sA hB hA, ?_⟩
        intro x
        rw [List.mem_filter]
        constructor
        · rintro ⟨h1, h2⟩
          exact ⟨List.elem_iff.mp h2, h1⟩
        · rintro ⟨h1, h2⟩
          exact ⟨h2, List.elem_iff.mpr h1⟩
    have hrecs : ∀ x ∈ S, ∃ r,
        (match dictGet w.entities x with
          | some r => Except.ok r
          | none => Except.error Err.keyError) = Except.ok r := by
      intro x hx
      rcases (hSmem x).mp hx with ⟨h1, h2⟩
      rcases hrec x h1 h2 with ⟨r, hr⟩
      exact ⟨r, by rw [hr]⟩
    rcases mapM_except_ok _ S hrecs with ⟨recs, hmapm, _, hmem2, hall2⟩
    refine ⟨cacheLookup_single w.entity_cache i sA hA,
      cacheLookup_single w.entity_cache j sB hB, S, recs, hlookup, ?_, hSmem, ?_⟩
    · unfold getEntitiesByBitmask
      rw [hlookup, exceptBind_ok, hmapm]
    · intro r
      constructor
      · intro hr
        rcases hmem2 r hr with ⟨x, hx, hfx⟩
        refine ⟨x, hx, ?_⟩
        rcases hg : dictGet w.entities x with _ | r2
        · rw [hg] at hfx
          cases hfx
        · rw [hg] at hfx
          injection hfx with hfx
          rw [hfx]
      · rintro ⟨x, hx, hgx⟩
        refine hall2 x hx r ?_
        rw [hgx]

/-- Concrete cache used to witness the query theorem. -/
def cacheSix : List (Nat × List Nat) :=
  [(1, [0, 1]), (2, [1, 2])]

/-- Concrete Entity Record used to witness the query theorem. -/
def recSix : EntityRecord :=
  ⟨[(1, ⟨0, 7⟩)], 1, 1⟩

/-- Concrete World used to witness the query theorem. -/
def worldSix : World :=
  ⟨[], [(1, recSix)], cacheSix, [], 2⟩

theorem cache_query_intersection_witness :
    (∃ S, cacheLookup cacheSix 3 = Except.ok S ∧
      ∀ x, x ∈ S ↔ ∀ b ∈ bits 3, ∀ s, dictGet cacheSix b = some s → x ∈ s) ∧
    (cacheLookup worldSix.entity_cache (2 ^ 0) = Except.ok [0, 1] ∧
      cacheLookup worldSix.entity_cache (2 ^ 1) = Except.ok [1, 2] ∧
      ∃ S recs,
        cacheLookup worldSix.entity_cache (2 ^ 0 ||| 2 ^ 1) = Except.ok S ∧
        getEntitiesByBitmask worldSix (2 ^ 0 ||| 2 ^ 1) = Except.ok recs ∧
        (∀ x, x ∈ S ↔ x ∈ [0, 1] ∧ x ∈ [1, 2]) ∧
        (∀ r, r ∈ recs ↔ ∃ x ∈ S, dictGet worldSix.entities x = some r)) := by
  constructor
  · refine cache_query_intersection.1 cacheSix 3 (by decide) ?_
    intro b hb
    have h3 : bits 3 = [1, 2] := by simp [bits, bitsGo]
    rw [h3] at hb
    rcases List.mem_cons.mp hb with rfl | hb2
    · exact ⟨[0, 1], rfl⟩
    · rcases List.mem_cons.mp hb2 with rfl | hb3
      · exact ⟨[1, 2], rfl⟩
      · cases hb3
  · refine cache_query_intersection.2 worldSix 0 1 (by decide) [0, 1] [1, 2]
      rfl rfl ?_
    intro x h1 h2
    rcases List.mem_cons.mp h1 with rfl | h1b
    · exact absurd h2 (by decide)
    · rcases List.mem_cons.mp h1b with rfl | h1c
      · exact ⟨recSix, rfl⟩
      · cases h1c

/-
Cache-consistency invariant (claim C4) infrastructure.
-/

/-- The entity-identity set cached for bit `b` (empty when no entry). -/
def cacheSet (cache : List (Nat × List Nat)) (b : Nat) : List Nat :=
  (dictGet cache b).getD []

theorem mem_cacheSet (cache : List (Nat × List Nat)) (b e : Nat) :
    e ∈ cacheSet cache b ↔ ∃ s, dictGet cache b = some s ∧ e ∈ s := by
  unfold cacheSet
  rcases h : dictGet cache b with _ | s <;> simp [h]

theorem mem_dictKeys_dictSet {α : Type} (l : List (Nat × α)) (k : Nat) (v : α)
    (k2 : Nat) : k2 ∈ dictKeys (dictSet l k v) ↔ k2 ∈ dictKeys l ∨ k2 = k := by
  by_cases hk : k ∈ dictKeys l
  · rw [dictKeys_dictSet_mem l k v hk]
    constructor
    · exact Or.inl
    · rintro (h | rfl)
      · exact h
      · exact hk
  · rw [dictKeys_dictSet_not_mem l k v hk, List.mem_append, List.mem_singleton]

theorem mem_dictKeys_dictDel {α : Type} (l : List (Nat × α)) (k k2 : Nat) :
    k2 ∈ dictKeys (dictDel l k) ↔ k2 ∈ dictKeys l ∧ k2 ≠ k := by
  rw [dictKeys_dictDel, List.mem_filter]
  simp

theorem nodup_dictKeys_dictSet {α : Type} (l : List (Nat × α)) (k : Nat) (v : α)
    (h : (dictKeys l).Nodup) : (dictKeys (dictSet l k v)).Nodup := by
  by_cases hk : k ∈ dictKeys l
  · rw [dictKeys_dictSet_mem l k v hk]
    exact h
  · rw [dictKeys_dictSet_not_mem l k v hk, List.nodup_append]
    refine ⟨h, List.nodup_singleton k, ?_⟩
    intro a ha hb
    rw [List.mem_singleton] at hb
    subst hb
    exact hk ha

theorem nodup_dictKeys_dictDel {α : Type} (l : List (Nat × α)) (k : Nat)
    (h : (dictKeys l).Nodup) : (dictKeys (dictDel l k)).Nodup := by
  rw [dictKeys_dictDel]
  exact h.filter (fun x => x ≠ k)

theorem recAdd_keys (reg : Registry) (r : EntityRecord) (c : Component)
    (rb : EntityRecord × Nat) (h : recAdd reg r c = Except.ok rb) :
    ∀ k, k ∈ recKeys rb.1 ↔ k ∈ recKeys r ∨ k = rb.2 := by
  unfold recAdd at h
  rcases hl : lookupType reg c.cls with e | b
  · rw [hl] at h
    cases h
  · rw [hl] at h
    injection h with h
    subst h
    intro k
    exact mem_dictKeys_dictSet r.entries b c k

theorem recAdd_keys_nodup (reg : Registry) (r : EntityRecord) (c : Component)
    (rb : EntityRecord × Nat) (h : recAdd reg r c = Except.ok rb)
    (hn : (recKeys r).Nodup) : (recKeys rb.1).Nodup := by
  unfold recAdd at h
  rcases hl : lookupType reg c.cls with e | b
  · rw [hl] at h
    cases h
  · rw [hl] at h
    injection h with h
    subst h
    exact nodup_dictKeys_dictSet r.entries b c hn

theorem recDelitem_keys (r : EntityRecord) (b : Nat) (r2 : EntityRecord)
    (h : recDelitem r b = Except.ok r2) :
    (∀ k, k ∈ recKeys r2 ↔ k ∈ recKeys r ∧ k ≠ b) ∧ b ∈ recKeys r := by
  unfold recDelitem at h
  by_cases hb : b ∈ recKeys r
  · rw [if_pos hb] at h
    injection h with h
    subst h
    exact ⟨fun k => mem_dictKeys_dictDel r.entries b k, hb⟩
  · rw [if_neg hb] at h
    cases h

theorem recDelitem_keys_nodup (r : EntityRecord) (b : Nat) (r2 : EntityRecord)
    (h : recDelitem r b = Except.ok r2) (hn : (recKeys r).Nodup) :
    (recKeys r2).Nodup := by
  unfold recDelitem at h
  by_cases hb : b ∈ recKeys r
  · rw [if_pos hb] at h
    injection h with h
    subst h
    exact nodup_dictKeys_dictDel r.entries b hn
  · rw [if_neg hb] at h
    cases h

theorem recInitEntries_keys_nodup (reg : Registry) :
    ∀ (comps : List Component) (acc entries : List (Nat × Component)),
      (dictKeys acc).Nodup →
      comps.foldlM (fun l c => do
        let b ← lookupType reg c.cls
        pure (dictSet l b c)) acc = Except.ok entries →
      (dictKeys entries).Nodup := by
  intro comps
  induction comps with
  | nil =>
    intro acc entries hacc h
    rw [List.foldlM_nil] at h
    injection h with h
    subst h
    exact hacc
  | cons c rest ih =>
    intro acc entries hacc h
    rw [List.foldlM_cons] at h
    rcases hl : lookupType reg c.cls with e | b
    · rw [hl] at h
      simp only [exceptBind_error] at h
      cases h
    · rw [hl] at h
      simp only [exceptBind_ok, exceptPure] at h
      exact ih (dictSet acc b c) entries (nodup_dictKeys_dictSet acc b c hacc) h

theorem recInit_keys_nodup (reg : Registry) (eid : Nat)
    (comps : List Component) (r : EntityRecord)
    (h : recInit reg eid comps = Except.ok r) : (recKeys r).Nodup := by
  unfold recInit at h
  rcases he : recInitEntries reg comps with e | entries
  · rw [he] at h
    simp only [exceptBind_error] at h
    cases h
  · rw [he] at h
    simp only [exceptBind_ok] at h
    rcases hk : dictKeys entries with _ | ⟨k, ks⟩
    · rw [hk] at h
      cases h
    · rw [hk] at h
      injection h with h
      subst h
      show (dictKeys entries).Nodup
      exact recInitEntries_keys_nodup reg comps [] entries List.nodup_nil he

theorem mem_dictSet_pairs {α : Type} (l : List (Nat × α)) (k : Nat) (v : α) :
    ∀ p ∈ dictSet l k v, p = (k, v) ∨ p ∈ l := by
  intro p hp
  unfold dictSet at hp
  by_cases hk : k ∈ dictKeys l
  · rw [if_pos hk] at hp
    rcases List.mem_map.mp hp with ⟨q, hq, hpq⟩
    by_cases hq1 : q.1 = k
    · left
      rw [← hpq, if_pos hq1]
    · right
      rw [← hpq, if_neg hq1]
      exact hq
  · rw [if_neg hk] at hp
    rcases List.mem_append.mp hp with h | h
    · exact Or.inr h
    · exact Or.inl (List.mem_singleton.mp h)

theorem cacheAdd_nodup (cache : List (Nat × List Nat)) (b eid : Nat)
    (h : ∀ p ∈ cache, p.2.Nodup) : ∀ p ∈ cacheAdd cache b eid, p.2.Nodup := by
  intro p hp
  unfold cacheAdd at hp
  rcases hg : dictGet cache b with _ | s
  · rw [hg] at hp
    rcases List.mem_append.mp hp with h2 | h2
    · exact h p h2
    · rw [List.mem_singleton] at h2
      subst h2
      exact List.nodup_singleton eid
  · rw [hg] at hp
    have hsnodup : s.Nodup := by
      rcases dictGet_mem cache b s hg with ⟨q, hq, hq2⟩
      rw [← hq2]
      exact h q hq
    rcases mem_dictSet_pairs cache b _ p hp with h2 | h2
    · rw [h2]
      by_cases he : eid ∈ s
      · rw [if_pos he]
        exact hsnodup
      · rw [if_neg he, List.nodup_append]
        refine ⟨hsnodup, List.nodup_singleton eid, ?_⟩
        intro a ha hb2
        rw [List.mem_singleton] at hb2
        subst hb2
        exact he ha
    · exact h p h2

theorem mem_cacheSet_cacheAdd (cache : List (Nat × List Nat)) (b eid e b2 : Nat) :
    e ∈ cacheSet (cacheAdd cache b eid) b2 ↔
      e ∈ cacheSet cache b2 ∨ (e = eid ∧ b2 = b) := by
  unfold cacheAdd cacheSet
  rcases hg : dictGet cache b with _ | s
  · by_cases hb2 : b2 = b
    · subst hb2
      rw [dictGet_append, hg]
      simp [dictGet]
    · rw [dictGet_append]
      have hne : ¬(b = b2) := fun h => hb2 h.symm
      rcases hg2 : dictGet cache b2 with _ | s2
      · simp [dictGet, hne, hb2]
      · simp [hb2]
  · by_cases hb2 : b2 = b
    · subst hb2
      rw [dictGet_dictSet_self, hg]
      by_cases he : eid ∈ s
      · rw [if_pos he]
        simp only [Option.getD_some, eq_self_iff_true, and_true]
        constructor
        · exact Or.inl
        · rintro (h | rfl)
          · exact h
          · exact he
      · rw [if_neg he]
        simp
    · rw [dictGet_dictSet_ne cache b b2 _ hb2]
      simp [hb2]

theorem cacheAddAll (eid : Nat) :
    ∀ (ks : List Nat) (cache : List (Nat × List Nat)),
      (∀ p ∈ cache, p.2.Nodup) →
      (∀ p ∈ ks.foldl (fun c b => cacheAdd c b eid) cache, p.2.Nodup) ∧
      (∀ e b, e ∈ cacheSet (ks.foldl (fun c b => cacheAdd c b eid) cache) b ↔
        e ∈ cacheSet cache b ∨ (e = eid ∧ b ∈ ks)) := by
  intro ks
  induction ks with
  | nil =>
    intro cache h
    refine ⟨h, ?_⟩
    intro e b
    simp
  | cons b0 rest ih =>
    intro cache h
    rw [List.foldl_cons]
    rcases ih (cacheAdd cache b0 eid) (cacheAdd_nodup cache b0 eid h) with ⟨h1, h2⟩
    refine ⟨h1, ?_⟩
    intro e b
    rw [h2 e b, mem_cacheSet_cacheAdd]
    constructor
    · rintro ((h3 | ⟨rfl, rfl⟩) | ⟨rfl, h3⟩)
      · exact Or.inl h3
      · exact Or.inr ⟨rfl, List.mem_cons_self _ _⟩
      · exact Or.inr ⟨rfl, List.mem_cons_of_mem _ h3⟩
    · rintro (h3 | ⟨rfl, h3⟩)
      · exact Or.inl (Or.inl h3)
      · rcases List.mem_cons.mp h3 with rfl | h4
        · exact Or.inl (Or.inr ⟨rfl, rfl⟩)
        · exact Or.inr ⟨rfl, h4⟩

theorem cacheDiscardAll_ok (eid : Nat) :
    ∀ (ks : List Nat) (cache : List (Nat × List Nat)),
      ks.Nodup →
      (∀ b ∈ ks, ∃ s, dictGet cache b = some s ∧ eid ∈ s) →
      (∀ p ∈ cache, p.2.Nodup) →
      ∃ cache2, cacheDiscardAll cache ks eid = (cache2, none) ∧
        (∀ p ∈ cache2, p.2.Nodup) ∧
        (∀ e b, e ∈ cacheSet cache2 b ↔
          e ∈ cacheSet cache b ∧ ¬(e = eid ∧ b ∈ ks)) := by
  intro ks
  induction ks with
  | nil =>
    intro cache _ _ hnod
    refine ⟨cache, rfl, hnod, ?_⟩
    intro e b
    simp
  | cons b0 rest ih =>
    intro cache hnodup hall hnod
    rcases hall b0 (List.mem_cons_self b0 rest) with ⟨s, hs, heid⟩
    have hstep : cacheDiscard cache b0 eid =
        Except.ok (dictSet cache b0 (s.erase eid)) := by
      unfold cacheDiscard
      rw [hs]
      simp [heid]
    have hsnodup : s.Nodup := by
      rcases dictGet_mem cache b0 s hs with ⟨q, hq, hq2⟩
      rw [← hq2]
      exact hnod q hq
    have hnod1 : ∀ p ∈ dictSet cache b0 (s.erase eid), p.2.Nodup := by
      intro p hp
      rcases mem_dictSet_pairs cache b0 (s.erase eid) p hp with rfl | h2
      · exact hsnodup.erase eid
      · exact hnod p h2
    rcases List.nodup_cons.mp hnodup with ⟨hb0rest, hrestnodup⟩
    have hall1 : ∀ b ∈ rest, ∃ s2,
        dictGet (dictSet cache b0 (s.erase eid)) b = some s2 ∧ eid ∈ s2 := by
      intro b hb
      have hne : b ≠ b0 := by
        intro hcon
        subst hcon
        exact hb0rest hb
      rcases hall b (List.mem_cons_of_mem b0 hb) with ⟨s2, hs2, he2⟩
      refine ⟨s2, ?_, he2⟩
      rw [dictGet_dictSet_ne cache b0 b _ hne]
      exact hs2
    rcases ih (dictSet cache b0 (s.erase eid)) hrestnodup hall1 hnod1 with
      ⟨cache2, hrun, hnod2, hmem2⟩
    refine ⟨cache2, ?_, hnod2, ?_⟩
    · show cacheDiscardAll cache (b0 :: rest) eid = (cache2, none)
      rw [cacheDiscardAll, hstep]
      exact hrun
    · intro e b
      rw [hmem2 e b]
      by_cases hb : b = b0
      · subst hb
        have hcs1 : cacheSet (dictSet cache b (s.erase eid)) b = s.erase eid := by
          unfold cacheSet
          rw [dictGet_dictSet_self]
          rfl
        have hcs : cacheSet cache b = s := by
          unfold cacheSet
          rw [hs]
          rfl
        rw [hcs1, hcs, hsnodup.mem_erase_iff]
        constructor
        · rintro ⟨⟨hne, hes⟩, _⟩
          refine ⟨hes, ?_⟩
          rintro ⟨rfl, _⟩
          exact hne rfl
        · rintro ⟨hes, h2⟩
          have hne : e ≠ eid := by
            rintro rfl
            exact h2 ⟨rfl, List.mem_cons_self b rest⟩
          refine ⟨⟨hne, hes⟩, ?_⟩
          rintro ⟨rfl, _⟩
          exact hne rfl
      · have hcs1 : cacheSet (dictSet cache b0 (s.erase eid)) b =
            cacheSet cache b := by
          unfold cacheSet
          rw [dictGet_dictSet_ne cache b0 b _ hb]
        rw [hcs1]
        constructor
        · rintro ⟨hes, h2⟩
          refine ⟨hes, ?_⟩
          rintro ⟨rfl, hbk⟩
          rcases List.mem_cons.mp hbk with h3 | h3
          · exact hb h3
          · exact h2 ⟨rfl, h3⟩
        · rintro ⟨hes, h2⟩
          refine ⟨hes, ?_⟩
          rintro ⟨rfl, hbk⟩
          exact h2 ⟨rfl, List.mem_cons_of_mem b0 hbk⟩

/-- World-state invariant relating the entity map, the Entity Cache and the
identity counter: every stored record is well formed with duplicate-free
keys, every cached set is duplicate-free, every live identity is below the
counter, and an identity is cached under a bit exactly when its record holds
that bit. -/
structure WStateInv (reg : Registry) (ents : List (Nat × EntityRecord))
    (cache : List (Nat × List Nat)) (nid : Nat) : Prop where
  recsWF : ∀ eid r, dictGet ents eid = some r → RecWF r ∧ (recKeys r).Nodup
  cacheNodup : ∀ p ∈ cache, p.2.Nodup
  idBound : ∀ eid ∈ dictKeys ents, eid < nid
  consistent : ∀ eid b, eid ∈ cacheSet cache b ↔
    ∃ r, dictGet ents eid = some r ∧ b ∈ recKeys r

theorem wStateInv_ext (reg : Registry) (ents1 ents2 : List (Nat × EntityRecord))
    (cache : List (Nat × List Nat)) (nid : Nat)
    (hent : ∀ e, dictGet ents1 e = dictGet ents2 e)
    (h : WStateInv reg ents1 cache nid) : WStateInv reg ents2 cache nid := by
  refine ⟨?_, h.cacheNodup, ?_, ?_⟩
  · intro eid r hr
    refine h.recsWF eid r ?_
    rw [hent eid]
    exact hr
  · intro eid he
    rcases (mem_dictKeys_iff_dictGet ents2 eid).mp he with ⟨r, hr⟩
    refine h.idBound eid ?_
    refine (mem_dictKeys_iff_dictGet ents1 eid).mpr ⟨r, ?_⟩
    rw [hent eid]
    exact hr
  · intro eid b
    rw [h.consistent eid b]
    constructor
    · rintro ⟨r, hr, hb⟩
      refine ⟨r, ?_, hb⟩
      rw [← hent eid]
      exact hr
    · rintro ⟨r, hr, hb⟩
      refine ⟨r, ?_, hb⟩
      rw [hent eid]
      exact hr

theorem wStateInv_init (reg : Registry) : WStateInv reg [] [] 0 := by
  refine ⟨?_, ?_, ?_, ?_⟩
  · intro eid r hr
    cases hr
  · intro p hp
    cases hp
  · intro eid he
    cases he
  · intro eid b
    constructor
    · intro h
      cases h
    · rintro ⟨r, hr, _⟩
      cases hr

theorem wStateInv_addStep (reg : Registry) (ents : List (Nat × EntityRecord))
    (cache : List (Nat × List Nat)) (nid eid : Nat) (r : EntityRecord)
    (c : Component) (rb : EntityRecord × Nat)
    (hinv : WStateInv reg ents cache nid) (hreg : RegWF reg)
    (hr : dictGet ents eid = some r)
    (h : recAdd reg r c = Except.ok rb) :
    WStateInv reg (dictSet ents eid rb.1) (cacheAdd cache rb.2 eid) nid := by
  rcases rb with ⟨r2, b⟩
  have hkeys := recAdd_keys reg r c (r2, b) h
  refine ⟨?_, ?_, ?_, ?_⟩
  · intro e2 r3 hr3
    by_cases he2 : e2 = eid
    · subst he2
      rw [dictGet_dictSet_self] at hr3
      injection hr3 with hr3
      subst hr3
      exact ⟨recWF_add reg hreg r c (r2, b) h (hinv.recsWF e2 r hr).1,
        recAdd_keys_nodup reg r c (r2, b) h (hinv.recsWF e2 r hr).2⟩
    · rw [dictGet_dictSet_ne ents eid e2 _ he2] at hr3
      exact hinv.recsWF e2 r3 hr3
  · exact cacheAdd_nodup cache b eid hinv.cacheNodup
  · intro e2 he2
    rcases (mem_dictKeys_dictSet ents eid r2 e2).mp he2 with h2 | rfl
    · exact hinv.idBound e2 h2
    · exact hinv.idBound e2
        ((mem_dictKeys_iff_dictGet ents e2).mpr ⟨r, hr⟩)
  · intro e2 b2
    rw [mem_cacheSet_cacheAdd]
    constructor
    · rintro (h2 | ⟨rfl, rfl⟩)
      · rcases (hinv.consistent e2 b2).mp h2 with ⟨r3, hr3, hb3⟩
        by_cases he2 : e2 = eid
        · subst he2
          rw [hr] at hr3
          injection hr3 with hr3
          subst hr3
          refine ⟨r2, ?_, (hkeys b2).mpr (Or.inl hb3)⟩
          rw [dictGet_dictSet_self]
        · refine ⟨r3, ?_, hb3⟩
          rw [dictGet_dictSet_ne ents eid e2 _ he2]
          exact hr3
      · refine ⟨r2, ?_, (hkeys _).mpr (Or.inr rfl)⟩
        rw [dictGet_dictSet_self]
    · rintro ⟨r3, hr3, hb3⟩
      by_cases he2 : e2 = eid
      · subst he2
        rw [dictGet_dictSet_self] at hr3
        injection hr3 with hr3
        subst hr3
        rcases (hkeys b2).mp hb3 with h4 | rfl
        · exact Or.inl ((hinv.consistent e2 b2).mpr ⟨r, hr, h4⟩)
        · exact Or.inr ⟨rfl, rfl⟩
      · rw [dictGet_dictSet_ne ents eid e2 _ he2] at hr3
        exact Or.inl ((hinv.consistent e2 b2).mpr ⟨r3, hr3, hb3⟩)

theorem wStateInv_delStep (reg : Registry) (ents : List (Nat × EntityRecord))
    (cache : List (Nat × List Nat)) (nid eid : Nat) (r r2 : EntityRecord)
    (b : Nat) (hinv : WStateInv reg ents cache nid)
    (hr : dictGet ents eid = some r)
    (h : recDelitem r b = Except.ok r2) :
    ∃ cache2, cacheDiscard cache b eid = Except.ok cache2 ∧
      WStateInv reg (dictSet ents eid r2) cache2 nid := by
  rcases recDelitem_keys r b r2 h with ⟨hkeys, hbmem⟩
  have heid : eid ∈ cacheSet cache b :=
    (hinv.consistent eid b).mpr ⟨r, hr, hbmem⟩
  rcases (mem_cacheSet cache b eid).mp heid with ⟨s, hs, hes⟩
  have hsnodup : s.Nodup := by
    rcases dictGet_mem cache b s hs with ⟨q, hq, hq2⟩
    rw [← hq2]
    exact hinv.cacheNodup q hq
  refine ⟨dictSet cache b (s.erase eid), ?_, ?_⟩
  · unfold cacheDiscard
    rw [hs]
    simp [hes]
  · refine ⟨?_, ?_, ?_, ?_⟩
    · intro e2 r3 hr3
      by_cases he2 : e2 = eid
      · subst he2
        rw [dictGet_dictSet_self] at hr3
        injection hr3 with hr3
        rw [← hr3]
        exact ⟨recWF_delitem r b r2 h (hinv.recsWF e2 r hr).1,
          recDelitem_keys_nodup r b r2 h (hinv.recsWF e2 r hr).2⟩
      · rw [dictGet_dictSet_ne ents eid e2 _ he2] at hr3
        exact hinv.recsWF e2 r3 hr3
    · intro p hp
      rcases mem_dictSet_pairs cache b (s.erase eid) p hp with rfl | h2
      · exact hsnodup.erase eid
      · exact hinv.cacheNodup p h2
    · intro e2 he2
      rcases (mem_dictKeys_dictSet ents eid r2 e2).mp he2 with h2 | rfl
      · exact hinv.idBound e2 h2
      · exact hinv.idBound e2 ((mem_dictKeys_iff_dictGet ents e2).mpr ⟨r, hr⟩)
    · intro e2 b2
      by_cases hb2 : b2 = b
      · subst hb2
        have hcs : cacheSet (dictSet cache b2 (s.erase eid)) b2 = s.erase eid := by
          unfold cacheSet
          rw [dictGet_dictSet_self]
          rfl
        rw [hcs, hsnodup.mem_erase_iff]
        constructor
        · rintro ⟨hne, hes2⟩
          have hold := (hinv.consistent e2 b2).mp
            ((mem_cacheSet cache b2 e2).mpr ⟨s, hs, hes2⟩)
          rcases hold with ⟨r3, hr3, hb3⟩
          refine ⟨r3, ?_, hb3⟩
          rw [dictGet_dictSet_ne ents eid e2 _ hne]
          exact hr3
        · rintro ⟨r3, hr3, hb3⟩
          by_cases he2 : e2 = eid
          · subst he2
            rw [dictGet_dictSet_self] at hr3
            injection hr3 with hr3
            subst hr3
            rcases (hkeys b2).mp hb3 with ⟨_, hne⟩
            exact absurd rfl hne
          · rw [dictGet_dictSet_ne ents eid e2 _ he2] at hr3
            have := (hinv.consistent e2 b2).mpr ⟨r3, hr3, hb3⟩
            rcases (mem_cacheSet cache b2 e2).mp this with ⟨s2, hs2, hes2⟩
            rw [hs] at hs2
            injection hs2 with hs2
            subst hs2
            exact ⟨he2, hes2⟩
      · have hcs : cacheSet (dictSet cache b (s.erase eid)) b2 =
            cacheSet cache b2 := by
          unfold cacheSet
          rw [dictGet_dictSet_ne cache b b2 _ hb2]
        rw [hcs, hinv.consistent e2 b2]
        constructor
        · rintro ⟨r3, hr3, hb3⟩
          by_cases he2 : e2 = eid
          · subst he2
            rw [hr] at hr3
            injection hr3 with hr3
            subst hr3
            refine ⟨r2, ?_, (hkeys b2).mpr ⟨hb3, hb2⟩⟩
            rw [dictGet_dictSet_self]
          · refine ⟨r3, ?_, hb3⟩
            rw [dictGet_dictSet_ne ents eid e2 _ he2]
            exact hr3
        · rintro ⟨r3, hr3, hb3⟩
          by_cases he2 : e2 = eid
          · subst he2
            rw [dictGet_dictSet_self] at hr3
            injection hr3 with hr3
            subst hr3
            exact ⟨r, hr, ((hkeys b2).mp hb3).1⟩
          · rw [dictGet_dictSet_ne ents eid e2 _ he2] at hr3
            exact ⟨r3, hr3, hb3⟩

theorem wStateInv_create (reg : Registry) (ents : List (Nat × EntityRecord))
    (cache : List (Nat × List Nat)) (nid : Nat) (cs : List Component)
    (r0 : EntityRecord) (hinv : WStateInv reg ents cache nid)
    (hreg : RegWF reg) (hinit : recInit reg nid cs = Except.ok r0) :
    WStateInv reg (dictSet ents nid r0)
      ((recKeys r0).foldl (fun c b => cacheAdd c b nid) cache) (nid + 1) := by
  have hfresh : nid ∉ dictKeys ents := by
    intro hcon
    exact absurd (hinv.idBound nid hcon) (lt_irrefl nid)
  have hnocache : ∀ b, nid ∉ cacheSet cache b := by
    intro b hcon
    rcases (hinv.consistent nid b).mp hcon with ⟨r3, hr3, _⟩
    exact hfresh ((mem_dictKeys_iff_dictGet ents nid).mpr ⟨r3, hr3⟩)
  rcases cacheAddAll nid (recKeys r0) cache hinv.cacheNodup with ⟨hnod2, hmem2⟩
  refine ⟨?_, hnod2, ?_, ?_⟩
  · intro e2 r3 hr3
    by_cases he2 : e2 = nid
    · subst he2
      rw [dictGet_dictSet_self] at hr3
      injection hr3 with hr3
      rw [← hr3]
      exact ⟨recWF_init reg hreg e2 cs r0 hinit,
        recInit_keys_nodup reg e2 cs r0 hinit⟩
    · rw [dictGet_dictSet_ne ents nid e2 _ he2] at hr3
      exact hinv.recsWF e2 r3 hr3
  · intro e2 he2
    rcases (mem_dictKeys_dictSet ents nid r0 e2).mp he2 with h2 | rfl
    · have := hinv.idBound e2 h2
      omega
    · omega
  · intro e2 b
    rw [hmem2 e2 b]
    constructor
    · rintro (h2 | ⟨rfl, h3⟩)
      · rcases (hinv.consistent e2 b).mp h2 with ⟨r3, hr3, hb3⟩
        have he2 : e2 ≠ nid := by
          intro hcon
          subst hcon
          exact hfresh ((mem_dictKeys_iff_dictGet ents e2).mpr ⟨r3, hr3⟩)
        refine ⟨r3, ?_, hb3⟩
        rw [dictGet_dictSet_ne ents nid e2 _ he2]
        exact hr3
      · refine ⟨r0, ?_, h3⟩
        rw [dictGet_dictSet_self]
    · rintro ⟨r3, hr3, hb3⟩
      by_cases he2 : e2 = nid
      · subst he2
        rw [dictGet_dictSet_self] at hr3
        injection hr3 with hr3
        subst hr3
        exact Or.inr ⟨rfl, hb3⟩
      · rw [dictGet_dictSet_ne ents nid e2 _ he2] at hr3
        exact Or.inl ((hinv.consistent e2 b).mpr ⟨r3, hr3, hb3⟩)

theorem wStateInv_removeEnt (reg : Registry) (ents : List (Nat × EntityRecord))
    (cache : List (Nat × List Nat)) (nid eid : Nat) (r : EntityRecord)
    (hinv : WStateInv reg ents cache nid)
    (hr : dictGet ents eid = some r) :
    ∃ cache2, cacheDiscardAll cache (recKeys r) eid = (cache2, none) ∧
      WStateInv reg (dictDel ents eid) cache2 nid := by
  have hall : ∀ b ∈ recKeys r, ∃ s, dictGet cache b = some s ∧ eid ∈ s := by
    intro b hb
    exact (mem_cacheSet cache b eid).mp
      ((hinv.consistent eid b).mpr ⟨r, hr, hb⟩)
  rcases cacheDiscardAll_ok eid (recKeys r) cache (hinv.recsWF eid r hr).2
    hall hinv.cacheNodup with ⟨cache2, hrun, hnod2, hmem2⟩
  refine ⟨cache2, hrun, ?_, hnod2, ?_, ?_⟩
  · intro e2 r3 hr3
    by_cases he2 : e2 = eid
    · subst he2
      rw [dictGet_dictDel_self] at hr3
      cases hr3
    · rw [dictGet_dictDel_ne ents eid e2 he2] at hr3
      exact hinv.recsWF e2 r3 hr3
  · intro e2 he2
    exact hinv.idBound e2 ((mem_dictKeys_dictDel ents eid e2).mp he2).1
  · intro e2 b
    rw [hmem2 e2 b]
    constructor
    · rintro ⟨h2, h3⟩
      rcases (hinv.consistent e2 b).mp h2 with ⟨r3, hr3, hb3⟩
      have he2 : e2 ≠ eid := by
        rintro rfl
        rw [hr] at hr3
        injection hr3 with hr3
        subst hr3
        exact h3 ⟨rfl, hb3⟩
      refine ⟨r3, ?_, hb3⟩
      rw [dictGet_dictDel_ne ents eid e2 he2]
      exact hr3
    · rintro ⟨r3, hr3, hb3⟩
      by_cases he2 : e2 = eid
      · subst he2
        rw [dictGet_dictDel_self] at hr3
        cases hr3
      · rw [dictGet_dictDel_ne ents eid e2 he2] at hr3
        refine ⟨(hinv.consistent e2 b).mpr ⟨r3, hr3, hb3⟩, ?_⟩
        rintro ⟨rfl, _⟩
        exact he2 rfl

theorem wStateInv_addGo (reg : Registry) (eid nid : Nat) :
    ∀ (cs : List Component) (ents : List (Nat × EntityRecord))
      (cache : List (Nat × List Nat)) (r : EntityRecord),
      RegWF reg → WStateInv reg ents cache nid →
      dictGet ents eid = some r →
      WStateInv reg
        (dictSet ents eid (addComponentsGo reg eid r cache cs).1)
        (addComponentsGo reg eid r cache cs).2.1 nid := by
  intro cs
  induction cs with
  | nil =>
    intro ents cache r hreg hinv hr
    show WStateInv reg (dictSet ents eid r) cache nid
    refine wStateInv_ext reg ents _ cache nid ?_ hinv
    intro e
    by_cases he : e = eid
    · subst he
      rw [dictGet_dictSet_self, hr]
    · rw [dictGet_dictSet_ne ents eid e _ he]
  | cons c rest ih =>
    intro ents cache r hreg hinv hr
    rcases ha : recAdd reg r c with e | rb
    · have hGo : addComponentsGo reg eid r cache (c :: rest) =
          (r, cache, some e) := by
        rw [addComponentsGo, ha]
      rw [hGo]
      show WStateInv reg (dictSet ents eid r) cache nid
      refine wStateInv_ext reg ents _ cache nid ?_ hinv
      intro e2
      by_cases he : e2 = eid
      · subst he
        rw [dictGet_dictSet_self, hr]
      · rw [dictGet_dictSet_ne ents eid e2 _ he]
    · rcases rb with ⟨r2, b⟩
      have hGo : addComponentsGo reg eid r cache (c :: rest) =
          addComponentsGo reg eid r2 (cacheAdd cache b eid) rest := by
        rw [addComponentsGo, ha]
      rw [hGo]
      have hstep := wStateInv_addStep reg ents cache nid eid r c (r2, b)
        hinv hreg hr ha
      have hih := ih (dictSet ents eid r2) (cacheAdd cache b eid) r2 hreg hstep
        (dictGet_dictSet_self ents eid r2)
      refine wStateInv_ext reg _ _ _ nid ?_ hih
      intro e2
      by_cases he : e2 = eid
      · subst he
        rw [dictGet_dictSet_self, dictGet_dictSet_self]
      · rw [dictGet_dictSet_ne _ eid e2 _ he, dictGet_dictSet_ne _ eid e2 _ he,
          dictGet_dictSet_ne _ eid e2 _ he]

theorem wStateInv_removeGo (reg : Registry) (eid nid : Nat) :
    ∀ (cts : List Nat) (ents : List (Nat × EntityRecord))
      (cache : List (Nat × List Nat)) (r : EntityRecord),
      RegWF reg → WStateInv reg ents cache nid →
      dictGet ents eid = some r →
      WStateInv reg
        (dictSet ents eid (removeComponentsGo reg eid r cache cts).1)
        (removeComponentsGo reg eid r cache cts).2.1 nid := by
  intro cts
  induction cts with
  | nil =>
    intro ents cache r hreg hinv hr
    show WStateInv reg (dictSet ents eid r) cache nid
    refine wStateInv_ext reg ents _ cache nid ?_ hinv
    intro e
    by_cases he : e = eid
    · subst he
      rw [dictGet_dictSet_self, hr]
    · rw [dictGet_dictSet_ne ents eid e _ he]
  | cons ct rest ih =>
    intro ents cache r hreg hinv hr
    rcases hl : lookupType reg ct with e | b
    · have hGo : removeComponentsGo reg eid r cache (ct :: rest) =
          (r, cache, some e) := by
        rw [removeComponentsGo, hl]
      rw [hGo]
      show WStateInv reg (dictSet ents eid r) cache nid
      refine wStateInv_ext reg ents _ cache nid ?_ hinv
      intro e2
      by_cases he : e2 = eid
      · subst he
        rw [dictGet_dictSet_self, hr]
      · rw [dictGet_dictSet_ne ents eid e2 _ he]
    · rcases hd : recDelitem r b with e | r2
      · have hGo : removeComponentsGo reg eid r cache (ct :: rest) =
            (r, cache, some e) := by
          simp only [removeComponentsGo, hl, hd]
        rw [hGo]
        show WStateInv reg (dictSet ents eid r) cache nid
        refine wStateInv_ext reg ents _ cache nid ?_ hinv
        intro e2
        by_cases he : e2 = eid
        · subst he
          rw [dictGet_dictSet_self, hr]
        · rw [dictGet_dictSet_ne ents eid e2 _ he]
      · rcases wStateInv_delStep reg ents cache nid eid r r2 b hinv hr hd with
          ⟨cache2, hdisc, hinv2⟩
        have hGo : removeComponentsGo reg eid r cache (ct :: rest) =
            removeComponentsGo reg eid r2 cache2 rest := by
          simp only [removeComponentsGo, hl, hd, hdisc]
        rw [hGo]
        have hih := ih (dictSet ents eid r2) cache2 r2 hreg hinv2
          (dictGet_dictSet_self ents eid r2)
        refine wStateInv_ext reg _ _ _ nid ?_ hih
        intro e2
        by_cases he : e2 = eid
        · subst he
          rw [dictGet_dictSet_self, dictGet_dictSet_self]
        · rw [dictGet_dictSet_ne _ eid e2 _ he, dictGet_dictSet_ne _ eid e2 _ he,
            dictGet_dictSet_ne _ eid e2 _ he]

/-- World entity-lifecycle operations quantified over by the cache claim. -/
inductive WorldOp where
  | create (components : List Component)
  | addComps (eid : Nat) (components : List Component)
  | removeComps (eid : Nat) (ctypes : List Nat)
  | removeEnt (eid : Nat)

/-- Run one operation; a propagated exception leaves the World in the state
it had reached (callers may catch the exception and carry on). -/
def stepWorld (w : World) : WorldOp → World
  | WorldOp.create cs => (createEntity w cs).1
  | WorldOp.addComps eid cs => (addComponents w eid cs).1
  | WorldOp.removeComps eid cts => (removeComponents w eid cts).1
  | WorldOp.removeEnt eid => (removeEntity w eid).1

/-- Run a sequence of operations. -/
def runWorld (w : World) (ops : List WorldOp) : World :=
  ops.foldl stepWorld w

/-- The invariant, packaged for a whole `World`. -/
def WInv (w : World) : Prop :=
  WStateInv w.component_types w.entities w.entity_cache w.new_entity_id

theorem wInv_step (w : World) (op : WorldOp)
    (hreg : RegWF w.component_types) (hinv : WInv w) :
    WInv (stepWorld w op) ∧
      (stepWorld w op).component_types = w.component_types := by
  cases op with
  | create cs =>
    show WInv (createEntity w cs).1 ∧
      (createEntity w cs).1.component_types = w.component_types
    unfold createEntity
    rcases hi : recInit w.component_types w.new_entity_id cs with e | r0
    · exact ⟨hinv, rfl⟩
    · exact ⟨wStateInv_create w.component_types w.entities w.entity_cache
        w.new_entity_id cs r0 hinv hreg hi, rfl⟩
  | addComps eid cs =>
    show WInv (addComponents w eid cs).1 ∧
      (addComponents w eid cs).1.component_types = w.component_types
    unfold addComponents
    rcases hg : dictGet w.entities eid with _ | r
    · exact ⟨hinv, rfl⟩
    · exact ⟨wStateInv_addGo w.component_types eid w.new_entity_id cs
        w.entities w.entity_cache r hreg hinv hg, rfl⟩
  | removeComps eid cts =>
    show WInv (removeComponents w eid cts).1 ∧
      (removeComponents w eid cts).1.component_types = w.component_types
    unfold removeComponents
    rcases hg : dictGet w.entities eid with _ | r
    · exact ⟨hinv, rfl⟩
    · exact ⟨wStateInv_removeGo w.component_types eid w.new_entity_id cts
        w.entities w.entity_cache r hreg hinv hg, rfl⟩
  | removeEnt eid =>
    show WInv (removeEntity w eid).1 ∧
      (removeEntity w eid).1.component_types = w.component_types
    unfold removeEntity
    rcases hg : dictGet w.entities eid with _ | r
    · exact ⟨hinv, rfl⟩
    · rcases wStateInv_removeEnt w.component_types w.entities w.entity_cache
        w.new_entity_id eid r hinv hg with ⟨cache2, hrun, hinv2⟩
      simp only [hrun]
      exact ⟨hinv2, trivial⟩

theorem wInv_run (ops : List WorldOp) :
    ∀ (w : World), RegWF w.component_types → WInv w →
      WInv (runWorld w ops) ∧
        (runWorld w ops).component_types = w.component_types := by
  induction ops with
  | nil =>
    intro w _ hinv
    exact ⟨hinv, rfl⟩
  | cons op rest ih =>
    intro w hreg hinv
    rcases wInv_step w op hreg hinv with ⟨h1, h2⟩
    have hreg2 : RegWF (stepWorld w op).component_types := by
      rw [h2]
      exact hreg
    rcases ih (stepWorld w op) hreg2 h1 with ⟨h3, h4⟩
    refine ⟨?_, ?_⟩
    · show WInv (runWorld w (op :: rest))
      rw [runWorld, List.foldl_cons]
      exact h3
    · show (runWorld w (op :: rest)).component_types = w.component_types
      rw [runWorld, List.foldl_cons]
      show (runWorld (stepWorld w op) rest).component_types = _
      rw [h4, h2]

/-- C4: starting from a World whose component-type registry assigns only
single-bit bitmasks and which has no entities yet, after any sequence of
`create_entity`, `add_components`, `remove_components` and `remove_entity`
operations, an entity identity is a member of the Entity Cache's set for a
single-bit value `2 ^ i` exactly when bit `i` is set in its record's
aggregate bitmask. -/
theorem world_cache_consistency (reg : Registry) (hreg : RegWF reg)
    (ops : List WorldOp) (eid : Nat) (r : EntityRecord) (i : Nat)
    (hr : dictGet (runWorld (initWorld reg) ops).entities eid = some r) :
    eid ∈ cacheSet (runWorld (initWorld reg) ops).entity_cache (2 ^ i) ↔
      r.bitmask.testBit i = true := by
  have hinit : WInv (initWorld reg) := wStateInv_init reg
  rcases wInv_run ops (initWorld reg) hreg hinit with ⟨hinv, _⟩
  have hwf := hinv.recsWF eid r hr
  rw [hinv.consistent eid (2 ^ i)]
  constructor
  · rintro ⟨r3, hr3, hb3⟩
    rw [hr] at hr3
    injection hr3 with hr3
    subst hr3
    rw [hwf.1.1]
    exact (testBit_orKeys_pow2 _ hwf.1.2 i).mpr hb3
  · intro ht
    rw [hwf.1.1] at ht
    exact ⟨r, hr, (testBit_orKeys_pow2 _ hwf.1.2 i).mp ht⟩

theorem world_cache_consistency_witness :
    0 ∈ cacheSet (runWorld (initWorld [(0, 1), (1, 2)])
        [WorldOp.create [⟨0, 5⟩]]).entity_cache (2 ^ 0) ↔
      (⟨[(1, ⟨0, 5⟩)], 1, 0⟩ : EntityRecord).bitmask.testBit 0 = true :=
  world_cache_consistency [(0, 1), (1, 2)]
    (by
      intro p hp
      rcases List.mem_cons.mp hp with rfl | hp2
      · exact ⟨0, rfl⟩
      · rcases List.mem_cons.mp hp2 with rfl | hp3
        · exact ⟨1, rfl⟩
        · cases hp3)
    [WorldOp.create [⟨0, 5⟩]] 0 ⟨[(1, ⟨0, 5⟩)], 1, 0⟩ 0 (by decide)
